import Mathlib

/-!
# Sparse gridding distance: a shallow embedding

Embedding of `sparse_gridding_distance.c` (functions `min`, `max`, `grid_point`,
`sparse_gridding_distance`) and of the size of the output arrays that
`mexFunction` of `sparse_gridding_distance_mex.c` allocates.

Modelling conventions.
* `double` values are exact rationals (`ℚ`).
* `unsigned int` values are naturals below `4294967296`; every unsigned operation
  that can leave that range is reduced modulo `4294967296` explicitly.
* Arrays are lists read with `List.getD _ _ 0` and written with `List.set`.
* The three parallel output buffers together with the counter
  `n_nonsparse_entries` are the list of triples written so far: the write at
  position `*n_nonsparse_entries` followed by `(*n_nonsparse_entries)++` is an
  append. The counter is an `unsigned int`: its value is the length of the list
  modulo `4294967296` (definition `n_nonsparse_entries`), and the list stands
  for the buffers only while fewer than `4294967296` triples have been written.
* Floor, ceiling and comparisons are taken of the exact values; the source
  takes them of the rounded `double` results.
* A C `for` loop over an `unsigned int` index is run with fuel; `none` means that
  the fuel ran out before the loop test failed.
-/

namespace SparseGridding

/-- One written triple: the values stored at one position of
`sparse_sample_indices`, `sparse_voxel_indices` and `sparse_distances`. -/
structure Entry where
  sample : Nat
  voxel : Nat
  distance : ℚ
deriving DecidableEq

/-- Mutable state seen by `grid_point`: the scratch array `seed_pt` and the
triples written so far. -/
structure GridState where
  seed_pt : List Nat
  entries : List Entry
deriving DecidableEq

/-- Source `min` (lines 44-46): `(a < b) ? a : b`. -/
def min (a b : ℚ) : ℚ := if a < b then a else b

/-- Source `max` (lines 50-52): `(a > b) ? a : b`. -/
def max (a b : ℚ) : ℚ := if a > b then a else b

/-- The conversion `(unsigned int) x` of a `double`: truncation toward zero,
then reduction modulo `4294967296` (C leaves the result undefined when the
truncated value is outside `0 .. 4294967295`; the reduction is what the usual
64-bit conversion followed by a 32-bit store produces). -/
def castUInt (x : ℚ) : Nat :=
  ((if 0 ≤ x then ⌊x⌋ else ⌈x⌉) % 4294967296).toNat

/-- A loop `for (i = start; cond i; i++) body` over an `unsigned int` index:
`i++` wraps modulo `4294967296`; one unit of fuel is used per evaluation of the
loop test. -/
def forLoop {σ : Type} (cond : Nat → Bool) (body : Nat → σ → Option σ) :
    Nat → Nat → σ → Option σ
  | 0, _, _ => none
  | fuel + 1, i, s =>
    if cond i then
      (body i s).bind (fun s1 => forLoop cond body fuel ((i + 1) % 4294967296) s1)
    else some s

/-- Lines 128-131: `idx_ = 0; for j < ndims: idx_ = idx_ + seed_pt[j]*idx_convert[j]`
in `unsigned int` arithmetic. -/
def linear_index (ndims : Nat) (seed_pt idx_convert : List Nat) : Nat :=
  (List.range ndims).foldl
    (fun idx_ j => (idx_ + seed_pt.getD j 0 * idx_convert.getD j 0) % 4294967296) 0

/-- Lines 121-146: the test at the smallest dimension and the write of one
triple (`sample_index+1`, `(double)idx_+1`, `new_kern_dist_sq`) at the position
of the counter, followed by the increment of the counter: an append to the list
of the triples written so far (see `n_nonsparse_entries` for the value of the
counter, which wraps at `4294967296`). -/
def grid_leaf (idx_convert : List Nat) (kernel_halfwidth_sqr : ℚ) (ndims : Nat)
    (sample_index : Nat) (new_kern_dist_sq : ℚ) (seed_pt : List Nat)
    (entries : List Entry) : List Entry :=
  if new_kern_dist_sq ≤ kernel_halfwidth_sqr then
    entries ++ [{ sample := (sample_index + 1) % 4294967296,
                  voxel := linear_index ndims seed_pt idx_convert + 1,
                  distance := new_kern_dist_sq }]
  else entries

/-- Lines 94-96: `((double)i - sample_loc[cur_dim])^2 + kern_dist_sq`. -/
def new_kern_dist_sq (sample_loc : List ℚ) (cur_dim i : Nat) (kern_dist_sq : ℚ) : ℚ :=
  ((i : ℚ) - sample_loc.getD cur_dim 0) * ((i : ℚ) - sample_loc.getD cur_dim 0)
    + kern_dist_sq

/-- Source `grid_point` (lines 68-159). The recursion is on `cur_dim`; every
loop of every level gets the same fuel. -/
def grid_point (fuel : Nat) (sample_loc : List ℚ) (idx_convert : List Nat)
    (kernel_halfwidth_sqr : ℚ) (ndims : Nat) (bounds : List Nat)
    (sample_index : Nat) : Nat → ℚ → GridState → Option GridState
  | 0, kern_dist_sq, st =>
    forLoop (fun i => decide (i ≤ bounds.getD (2 * 0 + 1) 0))
      (fun i s =>
        let seed_pt := s.seed_pt.set 0 i
        let d := new_kern_dist_sq sample_loc 0 i kern_dist_sq
        some { seed_pt := seed_pt.set 0 (bounds.getD (2 * 0) 0),
               entries := grid_leaf idx_convert kernel_halfwidth_sqr ndims
                            sample_index d seed_pt s.entries })
      fuel (bounds.getD (2 * 0) 0) st
  | cur + 1, kern_dist_sq, st =>
    forLoop (fun i => decide (i ≤ bounds.getD (2 * (cur + 1) + 1) 0))
      (fun i s =>
        let seed_pt := s.seed_pt.set (cur + 1) i
        let d := new_kern_dist_sq sample_loc (cur + 1) i kern_dist_sq
        (grid_point fuel sample_loc idx_convert kernel_halfwidth_sqr ndims bounds
            sample_index cur d { seed_pt := seed_pt, entries := s.entries }).map
          (fun s1 => { seed_pt := s1.seed_pt.set (cur + 1) (bounds.getD (2 * (cur + 1)) 0),
                       entries := s1.entries }))
      fuel (bounds.getD (2 * (cur + 1)) 0) st

/-- Lines 190-192: `output_halfwidth[dim] = (unsigned int) ceil(output_dims[dim]*0.5)`. -/
def output_halfwidth (ndims : Nat) (output_dims : List Nat) : List Nat :=
  (List.range ndims).map
    (fun dim => castUInt (⌈((output_dims.getD dim 0 : Nat) : ℚ) * (1 / 2)⌉ : ℤ))

/-- Lines 197-204: `idx_convert[dim]` is the running `unsigned int` product of
`output_dims[0 .. dim-1]`. -/
def idx_convert (ndims : Nat) (output_dims : List Nat) : List Nat :=
  (List.range ndims).map
    (fun dim => (List.range dim).foldl
      (fun acc p => (acc * output_dims.getD p 0) % 4294967296) 1)

/-- Line 221: the read `coords[ndims*p+dim]` (the index is an `unsigned int`). -/
def coord (coords : List ℚ) (ndims p dim : Nat) : ℚ :=
  coords.getD ((ndims * p + dim) % 4294967296) 0

/-- Line 221: `sample_loc[dim]` of sample `p`. -/
def sample_loc (coords : List ℚ) (ndims : Nat) (output_dims : List Nat) (p : Nat) : List ℚ :=
  (List.range ndims).map
    (fun dim => coord coords ndims p dim * ((output_dims.getD dim 0 : Nat) : ℚ)
      + (((output_halfwidth ndims output_dims).getD dim 0 : Nat) : ℚ))

/-- Line 224: the lower boundary `(unsigned int) max(ceil(loc - halfwidth), 0)`,
with the difference `loc - halfwidth` exact (the source rounds it to a
`double` before taking the ceiling). -/
def lower_bound (loc kernel_halfwidth : ℚ) : Nat :=
  castUInt (max ((⌈loc - kernel_halfwidth⌉ : ℤ) : ℚ) 0)

/-- Line 225: the upper boundary
`(unsigned int) min(floor(loc + halfwidth), output_dims[dim]-1)`; the
subtraction is an `unsigned int` subtraction, and the sum `loc + halfwidth` is
exact (the source rounds it to a `double` before taking the floor). -/
def upper_bound (loc kernel_halfwidth : ℚ) (output_dim : Nat) : Nat :=
  castUInt (min ((⌊loc + kernel_halfwidth⌋ : ℤ) : ℚ)
    (((output_dim + 4294967295) % 4294967296 : Nat) : ℚ))

/-- Lines 220-228: the array `bounds` of sample `p`
(`bounds[2*dim]` lower, `bounds[2*dim+1]` upper). -/
def bounds (coords : List ℚ) (kernel_width : ℚ) (ndims : Nat) (output_dims : List Nat)
    (p : Nat) : List Nat :=
  (List.range ndims).flatMap
    (fun dim =>
      [lower_bound ((sample_loc coords ndims output_dims p).getD dim 0) (kernel_width * (1 / 2)),
       upper_bound ((sample_loc coords ndims output_dims p).getD dim 0) (kernel_width * (1 / 2))
         (output_dims.getD dim 0)])

/-- Line 227: `seed_pt[dim] = bounds[2*dim]`. -/
def seed_init (ndims : Nat) (bounds : List Nat) : List Nat :=
  (List.range ndims).map (fun dim => bounds.getD (2 * dim) 0)

/-- Lines 219-238: the body of the loop over the sample points, for sample `p`:
fill `sample_loc`, `bounds`, `seed_pt`, then call `grid_point` at dimension
`ndims-1` (an `unsigned int` subtraction) with accumulated distance 0. -/
def sample_step (fuel : Nat) (coords : List ℚ) (kernel_width : ℚ) (ndims : Nat)
    (output_dims : List Nat) (p : Nat) (entries : List Entry) : Option (List Entry) :=
  let kernel_halfwidth := kernel_width * (1 / 2)
  let kernel_halfwidth_sqr := kernel_halfwidth * kernel_halfwidth
  let b := bounds coords kernel_width ndims output_dims p
  (grid_point fuel (sample_loc coords ndims output_dims p) (idx_convert ndims output_dims)
      kernel_halfwidth_sqr ndims b p ((ndims + 4294967295) % 4294967296) 0
      { seed_pt := seed_init ndims b, entries := entries }).map (fun s => s.entries)

/-- Source `sparse_gridding_distance` (lines 164-257): the loop
`for (p=0; p<npts; p++)` over an `unsigned int` `p`, starting with no triple
written. The result is the content of the three output buffers. -/
def sparse_gridding_distance (fuel : Nat) (coords : List ℚ) (kernel_width : ℚ)
    (npts ndims : Nat) (output_dims : List Nat) : Option (List Entry) :=
  forLoop (fun p => decide (p < npts))
    (fun p entries => sample_step fuel coords kernel_width ndims output_dims p entries)
    fuel 0 []

/-! ## Specification-side definitions -/

/-- The index values of the loop `for (i = lower; i <= upper; i++)` when it ends. -/
def loopRange (lower upper : Nat) : List Nat := List.range' lower (upper + 1 - lower)

/-- The index values of the loop of dimension `j` of `grid_point`, read from `bounds`. -/
def box_rng (bounds : List Nat) (j : Nat) : List Nat :=
  loopRange (bounds.getD (2 * j) 0) (bounds.getD (2 * j + 1) 0)

/-- The triples written by a nest of loops over dimensions `d, d-1, ..., 0`
(dimension `d` outermost) in which the index of dimension `j` runs through
`rng j`; `tail` holds the coordinates already fixed for the dimensions above
`d`, and `k` the squared distance accumulated over them. -/
def nest_entries (rng : Nat → List Nat) (sample_loc : List ℚ) (idx_convert : List Nat)
    (kernel_halfwidth_sqr : ℚ) (ndims sample_index : Nat) : Nat → ℚ → List Nat → List Entry
  | 0, k, tail =>
    (rng 0).flatMap (fun i =>
      grid_leaf idx_convert kernel_halfwidth_sqr ndims sample_index
        (new_kern_dist_sq sample_loc 0 i k) (i :: tail) [])
  | d + 1, k, tail =>
    (rng (d + 1)).flatMap (fun i =>
      nest_entries rng sample_loc idx_convert kernel_halfwidth_sqr ndims sample_index d
        (new_kern_dist_sq sample_loc (d + 1) i k) (i :: tail))

/-- The coordinate tuples `[i_0, ..., i_d]` visited by a nest of loops over
dimensions `d, ..., 0`, in the order of the visit (dimension `d` varies slowest,
dimension `0` fastest). -/
def nest_tuples (rng : Nat → List Nat) : Nat → List (List Nat)
  | 0 => (rng 0).map (fun i => [i])
  | d + 1 => (rng (d + 1)).flatMap (fun i => (nest_tuples rng d).map (fun t => t ++ [i]))

/-- Squared distance `sum_d (v[d] - loc[d])^2` between an integer coordinate and
a location. -/
def dist_sq (loc : List ℚ) (v : List Nat) : ℚ :=
  ((List.range v.length).map
    (fun d => ((v.getD d 0 : ℚ) - loc.getD d 0) * ((v.getD d 0 : ℚ) - loc.getD d 0))).sum

/-- The triple written for sample `p` and the voxel of coordinate `v`. -/
def entry_of (loc : List ℚ) (idx_convert : List Nat) (ndims p : Nat) (v : List Nat) : Entry :=
  { sample := (p + 1) % 4294967296,
    voxel := linear_index ndims v idx_convert + 1,
    distance := dist_sq loc v }

/-- Order of the visit: `u` precedes `v` when, comparing from the highest
dimension down to dimension 0, the first differing coordinate is smaller in `u`. -/
def precedes (u v : List Nat) : Prop :=
  ∃ j, u.getD j 0 < v.getD j 0 ∧ ∀ j1, j < j1 → u.getD j1 0 = v.getD j1 0

/-- The integer coordinates of the full grid `0 <= v[d] <= output_dims[d]-1`,
dimension `ndims-1` varying slowest and dimension 0 fastest. -/
def grid_tuples (ndims : Nat) (output_dims : List Nat) : List (List Nat) :=
  nest_tuples (fun j => List.range (output_dims.getD j 0)) (ndims - 1)

/-- Brute-force reference for one sample: one triple for every coordinate of the
full grid whose squared distance to the location of sample `p` is at most the
squared kernel half-width. -/
def sample_entries (coords : List ℚ) (kernel_width : ℚ) (ndims : Nat)
    (output_dims : List Nat) (p : Nat) : List Entry :=
  ((grid_tuples ndims output_dims).filter
      (fun v => decide (dist_sq (sample_loc coords ndims output_dims p) v
        ≤ kernel_width * (1 / 2) * (kernel_width * (1 / 2))))).map
    (entry_of (sample_loc coords ndims output_dims p) (idx_convert ndims output_dims) ndims p)

/-- The exact sum `sum_d v[d] * stride[d]` over the `ndims` dimensions. -/
def coord_sum (ndims : Nat) (v stride : List Nat) : Nat :=
  ((List.range ndims).map (fun j => v.getD j 0 * stride.getD j 0)).sum

/-- The stride of dimension `d`: the exact product of `output_dims[0 .. d-1]`. -/
def stride (output_dims : List Nat) : Nat → Nat
  | 0 => 1
  | d + 1 => stride output_dims d * output_dims.getD d 0

/-- The exact product of the `ndims` entries of `output_dims`. -/
def grid_size (ndims : Nat) (output_dims : List Nat) : Nat :=
  ((List.range ndims).map (fun d => output_dims.getD d 0)).prod

/-- Decoding of a zero-based linear index with the strides computed by the code
and the shape: coordinate `d` is `(index / idx_convert[d]) mod output_dims[d]`. -/
def decode (ndims : Nat) (output_dims : List Nat) (index : Nat) : List Nat :=
  (List.range ndims).map
    (fun d => (index / (idx_convert ndims output_dims).getD d 0) % output_dims.getD d 0)

/-- The integer coordinates for which the processing of sample `p` writes a
triple, in the order of the writes: the tuples of the stored box, in the order
of the visit, whose squared distance to the location of the sample is at most
the squared kernel half-width. -/
def emitted_tuples (coords : List ℚ) (kernel_width : ℚ) (ndims : Nat)
    (output_dims : List Nat) (p : Nat) : List (List Nat) :=
  (nest_tuples (box_rng (bounds coords kernel_width ndims output_dims p)) (ndims - 1)).filter
    (fun v => decide (dist_sq (sample_loc coords ndims output_dims p) v
      ≤ kernel_width * (1 / 2) * (kernel_width * (1 / 2))))


/-! ## The wrapper `mexFunction` (`sparse_gridding_distance_mex.c`) -/

/-- The conversion `(mwSize) x` of a `double` in `mexFunction` (`mwSize` is a
64-bit unsigned integer): truncation toward zero, then reduction modulo
`18446744073709551616`. -/
def castSize (x : ℚ) : Nat :=
  ((if 0 ≤ x then ⌊x⌋ else ⌈x⌉) % 18446744073709551616).toNat

/-- Source `mexFunction` (lines 50, 101-104 of the wrapper): `max_n_neighbors`
starts at 1 and is multiplied by `kernel_width` once per dimension, the product
being converted back to `mwSize` at each step. -/
def max_n_neighbors (ndims : Nat) (kernel_width : ℚ) : Nat :=
  (List.range ndims).foldl (fun acc _ => castSize ((acc : ℚ) * kernel_width)) 1

/-- Source `mexFunction` (line 134 of the wrapper): the length
`round(npts*max_n_neighbors)` of each of the three output arrays. -/
def output_capacity (npts ndims : Nat) (kernel_width : ℚ) : Nat :=
  (npts * max_n_neighbors ndims kernel_width) % 18446744073709551616

/-! ## Further specification-side definitions -/

/-- Variant of `grid_point` with early pruning, as the specification describes
it: at an intermediate dimension (`cur_dim > 0`) the recursive call is skipped
whenever the partial sum `new_kern_dist_sq` already exceeds
`kernel_halfwidth_sqr`; everything else is as in `grid_point`. -/
def grid_point_pruned (fuel : Nat) (sample_loc : List ℚ) (idx_convert : List Nat)
    (kernel_halfwidth_sqr : ℚ) (ndims : Nat) (bounds : List Nat)
    (sample_index : Nat) : Nat → ℚ → GridState → Option GridState
  | 0, kern_dist_sq, st =>
    forLoop (fun i => decide (i ≤ bounds.getD (2 * 0 + 1) 0))
      (fun i s =>
        let seed_pt := s.seed_pt.set 0 i
        let d := new_kern_dist_sq sample_loc 0 i kern_dist_sq
        some { seed_pt := seed_pt.set 0 (bounds.getD (2 * 0) 0),
               entries := grid_leaf idx_convert kernel_halfwidth_sqr ndims
                            sample_index d seed_pt s.entries })
      fuel (bounds.getD (2 * 0) 0) st
  | cur + 1, kern_dist_sq, st =>
    forLoop (fun i => decide (i ≤ bounds.getD (2 * (cur + 1) + 1) 0))
      (fun i s =>
        let seed_pt := s.seed_pt.set (cur + 1) i
        let d := new_kern_dist_sq sample_loc (cur + 1) i kern_dist_sq
        if d ≤ kernel_halfwidth_sqr then
          (grid_point_pruned fuel sample_loc idx_convert kernel_halfwidth_sqr ndims bounds
              sample_index cur d { seed_pt := seed_pt, entries := s.entries }).map
            (fun s1 => { seed_pt := s1.seed_pt.set (cur + 1) (bounds.getD (2 * (cur + 1)) 0),
                         entries := s1.entries })
        else
          some { seed_pt := seed_pt.set (cur + 1) (bounds.getD (2 * (cur + 1)) 0),
                 entries := s.entries })
      fuel (bounds.getD (2 * (cur + 1)) 0) st

/-- The triple `e` with its stored sample index shifted by `n`. -/
def shift_sample (n : Nat) (e : Entry) : Entry :=
  { sample := e.sample + n, voxel := e.voxel, distance := e.distance }

/-- The integers `i >= 0` with `ceil(loc[j] - hw) <= i <= floor(loc[j] + hw)`:
the indices of dimension `j` within the half-width `hw` of the location. -/
def support_rng (loc : List ℚ) (hw : ℚ) (j : Nat) : List Nat :=
  if 0 ≤ ⌊loc.getD j 0 + hw⌋ then
    loopRange ⌈loc.getD j 0 - hw⌉.toNat ⌊loc.getD j 0 + hw⌋.toNat
  else []

theorem mem_loopRange {lower upper i : Nat} :
    i ∈ loopRange lower upper ↔ lower ≤ i ∧ i ≤ upper := by
  unfold loopRange
  rw [List.mem_range'_1]
  omega

theorem loopRange_eq_nil {lower upper : Nat} (h : upper < lower) :
    loopRange lower upper = [] := by
  unfold loopRange
  have : upper + 1 - lower = 0 := by omega
  rw [this]; rfl

theorem loopRange_eq_cons {lower upper : Nat} (h : lower ≤ upper) :
    loopRange lower upper = lower :: loopRange (lower + 1) upper := by
  unfold loopRange
  have : upper + 1 - lower = (upper + 1 - (lower + 1)) + 1 := by omega
  rw [this, List.range'_succ]

/-- A loop whose upper bound is the largest `unsigned int` never ends. -/
theorem forLoop_diverge {σ : Type} (upper : Nat) (body : Nat → σ → Option σ)
    (hu : 4294967295 ≤ upper) :
    ∀ (fuel i : Nat) (s : σ), i < 4294967296 →
      forLoop (fun i => decide (i ≤ upper)) body fuel i s = none := by
  intro fuel
  induction fuel with
  | zero => intro i s _; rfl
  | succ fuel ih =>
    intro i s hi
    have hc : decide (i ≤ upper) = true := by
      apply decide_eq_true; omega
    simp only [forLoop, hc, if_true]
    cases hb : body i s with
    | none => rfl
    | some s1 =>
      simp only [Option.bind]
      exact ih _ s1 (Nat.mod_lt _ (by decide))

/-- Whenever the loop ends, its result is that of running the body on
`lower, lower+1, ..., upper` in this order. -/
theorem forLoop_some {σ : Type} (upper : Nat) (body : Nat → σ → Option σ) :
    ∀ (fuel lower : Nat) (s s1 : σ), lower < 4294967296 →
      forLoop (fun i => decide (i ≤ upper)) body fuel lower s = some s1 →
      (loopRange lower upper).foldlM (fun s i => body i s) s = some s1 := by
  intro fuel
  induction fuel with
  | zero => intro lower s s1 _ h; simp [forLoop] at h
  | succ fuel ih =>
    intro lower s s1 hl h
    by_cases hc : lower ≤ upper
    · have hd : decide (lower ≤ upper) = true := decide_eq_true hc
      simp only [forLoop, hd, if_true] at h
      rw [loopRange_eq_cons hc, List.foldlM_cons]
      cases hb : body lower s with
      | none => rw [hb] at h; simp at h
      | some s2 =>
        rw [hb] at h
        simp only [Option.bind] at h
        by_cases hw : lower + 1 < 4294967296
        · rw [Nat.mod_eq_of_lt hw] at h
          have := ih (lower + 1) s2 s1 hw h
          simpa using this
        · have hu : 4294967295 ≤ upper := by omega
          rw [forLoop_diverge upper body hu fuel _ s2 (Nat.mod_lt _ (by decide))] at h
          simp at h
    · have hd : decide (lower ≤ upper) = false := decide_eq_false hc
      simp only [forLoop, hd] at h
      rw [loopRange_eq_nil (by omega)]
      simpa using h

/-- With an upper bound below the largest `unsigned int` and enough fuel the
loop ends, and runs the body on `lower, ..., upper` in this order. -/
theorem forLoop_total {σ : Type} (upper : Nat) (body : Nat → σ → Option σ)
    (hu : upper < 4294967295) :
    ∀ (fuel lower : Nat) (s : σ), upper + 1 - lower < fuel →
      forLoop (fun i => decide (i ≤ upper)) body fuel lower s
        = (loopRange lower upper).foldlM (fun s i => body i s) s := by
  intro fuel
  induction fuel with
  | zero => intro lower s h; omega
  | succ fuel ih =>
    intro lower s hf
    by_cases hc : lower ≤ upper
    · have hd : decide (lower ≤ upper) = true := decide_eq_true hc
      simp only [forLoop, hd, if_true]
      rw [loopRange_eq_cons hc, List.foldlM_cons]
      have hw : lower + 1 < 4294967296 := by omega
      rw [Nat.mod_eq_of_lt hw]
      cases hb : body lower s with
      | none => rfl
      | some s2 =>
        simp only [Option.bind]
        rw [ih (lower + 1) s2 (by omega)]
        rfl
    · have hd : decide (lower ≤ upper) = false := decide_eq_false hc
      simp only [forLoop, hd]
      rw [loopRange_eq_nil (by omega)]
      rfl

/-! ## The recursive enumerator -/

theorem foldlM_spec {σ : Type} (ent : σ → List Entry) (Inv : σ → Prop) (E : Nat → List Entry)
    (body : Nat → σ → Option σ) (l : List Nat)
    (hbody : ∀ i ∈ l, ∀ s s1, Inv s → body i s = some s1 →
      Inv s1 ∧ ent s1 = ent s ++ E i) :
    ∀ s s1, Inv s → l.foldlM (fun s i => body i s) s = some s1 →
      Inv s1 ∧ ent s1 = ent s ++ l.flatMap E := by
  induction l with
  | nil =>
    intro s s1 hs h
    simp only [List.foldlM_nil] at h
    cases h
    exact ⟨hs, by simp⟩
  | cons a l ih =>
    intro s s1 hs h
    rw [List.foldlM_cons] at h
    cases hb : body a s with
    | none => rw [hb] at h; simp at h
    | some s2 =>
      rw [hb] at h
      have h2 : l.foldlM (fun s i => body i s) s2 = some s1 := by simpa using h
      obtain ⟨hi2, he2⟩ := hbody a (List.mem_cons_self _ _) s s2 hs hb
      obtain ⟨hi1, he1⟩ :=
        ih (fun i hi => hbody i (List.mem_cons_of_mem _ hi)) s2 s1 hi2 h2
      refine ⟨hi1, ?_⟩
      rw [he1, he2, List.flatMap_cons, List.append_assoc]

theorem foldlM_total {σ : Type} (body : Nat → σ → Option σ) (l : List Nat)
    (hbody : ∀ i ∈ l, ∀ s, ∃ s1, body i s = some s1) :
    ∀ s, ∃ s1, l.foldlM (fun s i => body i s) s = some s1 := by
  induction l with
  | nil => intro s; exact ⟨s, rfl⟩
  | cons a l ih =>
    intro s
    obtain ⟨s2, hb⟩ := hbody a (List.mem_cons_self _ _) s
    obtain ⟨s1, h1⟩ := ih (fun i hi => hbody i (List.mem_cons_of_mem _ hi)) s2
    refine ⟨s1, ?_⟩
    rw [List.foldlM_cons, hb]
    simpa using h1

theorem grid_leaf_append (idx_convert : List Nat) (hsq : ℚ) (ndims p : Nat) (d : ℚ)
    (seed : List Nat) (es : List Entry) :
    grid_leaf idx_convert hsq ndims p d seed es
      = es ++ grid_leaf idx_convert hsq ndims p d seed [] := by
  unfold grid_leaf
  split <;> simp

theorem set_zero_eq_cons (l : List Nat) (i : Nat) (h : 0 < l.length) :
    l.set 0 i = i :: l.drop 1 := by
  cases l with
  | nil => simp at h
  | cons a l => simp

theorem drop_set_self (l : List Nat) (c i : Nat) (h : c < l.length) :
    (l.set c i).drop c = i :: l.drop (c + 1) := by
  induction l generalizing c with
  | nil => simp at h
  | cons a l ih =>
    cases c with
    | zero => simp
    | succ c =>
      simp only [List.set_cons_succ, List.drop_succ_cons]
      exact ih c (by simpa using h)

theorem drop_set_above (l : List Nat) (c i : Nat) :
    (l.set c i).drop (c + 1) = l.drop (c + 1) := by
  induction l generalizing c with
  | nil => simp
  | cons a l ih =>
    cases c with
    | zero => simp
    | succ c =>
      simp only [List.set_cons_succ, List.drop_succ_cons]
      exact ih c

/-- Whenever `grid_point` returns, it has appended the triples of the loop nest
over the box of `bounds`, and left `seed_pt` unchanged above `cur_dim`. -/
theorem grid_point_some (fuel : Nat) (loc : List ℚ) (conv : List Nat) (hsq : ℚ)
    (ndims : Nat) (bnd : List Nat) (p : Nat) :
    ∀ (d : Nat) (k : ℚ) (s s1 : GridState), d < s.seed_pt.length →
      (∀ j, j ≤ d → bnd.getD (2 * j) 0 < 4294967296) →
      grid_point fuel loc conv hsq ndims bnd p d k s = some s1 →
      (s1.seed_pt.length = s.seed_pt.length ∧
        s1.seed_pt.drop (d + 1) = s.seed_pt.drop (d + 1)) ∧
      s1.entries = s.entries
        ++ nest_entries (box_rng bnd) loc conv hsq ndims p d k (s.seed_pt.drop (d + 1)) := by
  intro d
  induction d with
  | zero =>
    intro k s s1 hlen hlo h
    unfold grid_point at h
    have h1 := forLoop_some _ _ fuel _ s s1 (hlo 0 (le_refl _)) h
    have := foldlM_spec GridState.entries
      (fun t => t.seed_pt.length = s.seed_pt.length ∧ t.seed_pt.drop (0 + 1) = s.seed_pt.drop (0 + 1))
      (fun i => grid_leaf conv hsq ndims p (new_kern_dist_sq loc 0 i k)
        (i :: s.seed_pt.drop (0 + 1)) [])
      _ _ ?_ s s1 ⟨rfl, rfl⟩ h1
    · simpa [nest_entries, box_rng] using this
    · intro i _ t t1 ⟨ht1, ht2⟩ hb
      simp only [Option.some.injEq] at hb
      subst hb
      have ht0 : 0 < t.seed_pt.length := by omega
      refine ⟨⟨by simp [ht1], ?_⟩, ?_⟩
      · simp only [List.set_set]
        rw [drop_set_above, ht2]
      · simp only
        rw [grid_leaf_append, set_zero_eq_cons _ _ ht0, ht2]
  | succ d ih =>
    intro k s s1 hlen hlo h
    unfold grid_point at h
    have h1 := forLoop_some _ _ fuel _ s s1 (hlo (d + 1) (le_refl _)) h
    have := foldlM_spec GridState.entries
      (fun t => t.seed_pt.length = s.seed_pt.length
        ∧ t.seed_pt.drop (d + 1 + 1) = s.seed_pt.drop (d + 1 + 1))
      (fun i => nest_entries (box_rng bnd) loc conv hsq ndims p d
        (new_kern_dist_sq loc (d + 1) i k) (i :: s.seed_pt.drop (d + 1 + 1)))
      _ _ ?_ s s1 ⟨rfl, rfl⟩ h1
    · simpa [nest_entries, box_rng] using this
    · intro i _ t t1 ⟨ht1, ht2⟩ hb
      simp only [Option.map_eq_some'] at hb
      obtain ⟨t2, hg, rfl⟩ := hb
      have hd1 : d + 1 < t.seed_pt.length := by omega
      obtain ⟨⟨hl2, hd2⟩, he2⟩ := ih _ _ t2 (by simp; omega)
        (fun j hj => hlo j (by omega)) hg
      simp only [List.length_set] at hl2
      simp only at hd2 he2
      rw [drop_set_self _ _ _ hd1, ht2] at hd2 he2
      refine ⟨⟨by simp [hl2, ht1], ?_⟩, he2⟩
      simp only
      rw [drop_set_above]
      have := congrArg (List.drop 1) hd2
      simpa using this

/-- With every upper bound below the largest `unsigned int` and enough fuel,
`grid_point` returns. -/
theorem grid_point_total (fuel : Nat) (loc : List ℚ) (conv : List Nat) (hsq : ℚ)
    (ndims : Nat) (bnd : List Nat) (p : Nat) :
    ∀ (d : Nat), (∀ j, j ≤ d → bnd.getD (2 * j + 1) 0 < 4294967295 ∧
        bnd.getD (2 * j + 1) 0 + 1 - bnd.getD (2 * j) 0 < fuel) →
      ∀ (k : ℚ) (s : GridState),
        ∃ s1, grid_point fuel loc conv hsq ndims bnd p d k s = some s1 := by
  intro d
  induction d with
  | zero =>
    intro hb k s
    unfold grid_point
    rw [forLoop_total _ _ (hb 0 (le_refl _)).1 fuel _ s (hb 0 (le_refl _)).2]
    exact foldlM_total _ _ (fun i _ t => ⟨_, rfl⟩) s
  | succ d ih =>
    intro hb k s
    unfold grid_point
    rw [forLoop_total _ _ (hb (d + 1) (le_refl _)).1 fuel _ s (hb (d + 1) (le_refl _)).2]
    refine foldlM_total _ _ (fun i _ t => ?_) s
    obtain ⟨t1, ht1⟩ := ih (fun j hj => hb j (by omega))
      (new_kern_dist_sq loc (d + 1) i k)
      { seed_pt := t.seed_pt.set (d + 1) i, entries := t.entries }
    exact ⟨_, by simp only [ht1, Option.map_some']; rfl⟩

/-! ## The loop nest as a list of coordinate tuples -/

theorem length_of_mem_nest_tuples (rng : Nat → List Nat) :
    ∀ (d : Nat) (t : List Nat), t ∈ nest_tuples rng d → t.length = d + 1 := by
  intro d
  induction d with
  | zero =>
    intro t ht
    simp only [nest_tuples, List.mem_map] at ht
    obtain ⟨i, _, rfl⟩ := ht
    rfl
  | succ d ih =>
    intro t ht
    simp only [nest_tuples, List.mem_flatMap, List.mem_map] at ht
    obtain ⟨i, _, u, hu, rfl⟩ := ht
    simp [ih u hu]

theorem dist_sq_singleton (loc : List ℚ) (i : Nat) (k : ℚ) :
    dist_sq loc [i] + k = new_kern_dist_sq loc 0 i k := by
  simp [dist_sq, new_kern_dist_sq, List.range_succ]

theorem dist_sq_concat (loc : List ℚ) (t : List Nat) (i : Nat) :
    dist_sq loc (t ++ [i])
      = dist_sq loc t + ((i : ℚ) - loc.getD t.length 0) * ((i : ℚ) - loc.getD t.length 0) := by
  unfold dist_sq
  rw [List.length_append, List.length_singleton, List.range_succ, List.map_append,
    List.sum_append]
  congr 1
  · congr 1
    apply List.map_congr_left
    intro j hj
    rw [List.mem_range] at hj
    rw [List.getD_append _ _ _ _ hj]
  · simp [List.getD_append_right]

theorem dist_sq_nonneg (loc : List ℚ) (t : List Nat) : 0 ≤ dist_sq loc t := by
  unfold dist_sq
  apply List.sum_nonneg
  intro x hx
  rw [List.mem_map] at hx
  obtain ⟨j, _, rfl⟩ := hx
  exact mul_self_nonneg _

theorem nest_entries_eq_tuples (rng : Nat → List Nat) (loc : List ℚ) (conv : List Nat)
    (hsq : ℚ) (ndims p : Nat) :
    ∀ (d : Nat) (k : ℚ) (tail : List Nat),
      nest_entries rng loc conv hsq ndims p d k tail
        = (nest_tuples rng d).flatMap
            (fun t => grid_leaf conv hsq ndims p (dist_sq loc t + k) (t ++ tail) []) := by
  intro d
  induction d with
  | zero =>
    intro k tail
    simp only [nest_entries, nest_tuples, List.flatMap_map]
    apply List.flatMap_congr
    intro i _
    rw [dist_sq_singleton]
    rfl
  | succ d ih =>
    intro k tail
    simp only [nest_entries, nest_tuples, List.flatMap_assoc, List.flatMap_map]
    apply List.flatMap_congr
    intro i _
    rw [ih]
    apply List.flatMap_congr
    intro t ht
    have hl := length_of_mem_nest_tuples rng d t ht
    rw [dist_sq_concat, hl, List.append_assoc]
    have : dist_sq loc t + new_kern_dist_sq loc (d + 1) i k
        = dist_sq loc t + ((i : ℚ) - loc.getD (d + 1) 0) * ((i : ℚ) - loc.getD (d + 1) 0) + k := by
      unfold new_kern_dist_sq; ring
    rw [this]
    rfl

theorem flatMap_ite_singleton {α β : Type} (l : List α) (P : α → Prop) [DecidablePred P]
    (f : α → β) :
    l.flatMap (fun t => if P t then [f t] else []) = (l.filter (fun t => decide (P t))).map f := by
  induction l with
  | nil => rfl
  | cons a l ih =>
    rw [List.flatMap_cons, ih, List.filter_cons]
    by_cases h : P a <;> simp [h]

/-- The triples of a loop nest starting with accumulated distance 0 and no
coordinate fixed: one triple for each visited tuple within the kernel
half-width, in the order of the visit. -/
theorem nest_entries_eq_filter_map (rng : Nat → List Nat) (loc : List ℚ) (conv : List Nat)
    (hsq : ℚ) (ndims p d : Nat) :
    nest_entries rng loc conv hsq ndims p d 0 []
      = ((nest_tuples rng d).filter (fun t => decide (dist_sq loc t ≤ hsq))).map
          (entry_of loc conv ndims p) := by
  rw [nest_entries_eq_tuples, ← flatMap_ite_singleton]
  apply List.flatMap_congr
  intro t _
  simp only [grid_leaf, add_zero, List.append_nil, List.nil_append, entry_of]

theorem exists_concat_of_length (t : List Nat) (d : Nat) (h : t.length = d + 1) :
    ∃ u i, t = u ++ [i] ∧ u.length = d := by
  rcases List.eq_nil_or_concat t with h0 | ⟨u, i, hu⟩
  · subst h0; simp at h
  · refine ⟨u, i, by simpa using hu, ?_⟩
    subst hu
    simpa using h

theorem mem_nest_tuples (rng : Nat → List Nat) :
    ∀ (d : Nat) (t : List Nat),
      t ∈ nest_tuples rng d ↔ t.length = d + 1 ∧ ∀ j, j ≤ d → t.getD j 0 ∈ rng j := by
  intro d
  induction d with
  | zero =>
    intro t
    simp only [nest_tuples, List.mem_map]
    constructor
    · rintro ⟨i, hi, rfl⟩
      refine ⟨rfl, fun j hj => ?_⟩
      have : j = 0 := by omega
      subst this
      simpa using hi
    · rintro ⟨hl, hm⟩
      obtain ⟨u, i, rfl, hu⟩ := exists_concat_of_length t 0 hl
      have : u = [] := List.eq_nil_of_length_eq_zero hu
      subst this
      exact ⟨i, by simpa using hm 0 (le_refl _), rfl⟩
  | succ d ih =>
    intro t
    simp only [nest_tuples, List.mem_flatMap, List.mem_map]
    constructor
    · rintro ⟨i, hi, u, hu, rfl⟩
      obtain ⟨hl, hm⟩ := (ih u).1 hu
      refine ⟨by simp [hl], fun j hj => ?_⟩
      by_cases hjd : j ≤ d
      · rw [List.getD_append _ _ _ _ (by omega)]
        exact hm j hjd
      · have : j = d + 1 := by omega
        subst this
        rw [List.getD_append_right _ _ _ _ (by omega)]
        simpa [hl] using hi
    · rintro ⟨hl, hm⟩
      obtain ⟨u, i, rfl, hu⟩ := exists_concat_of_length t (d + 1) hl
      refine ⟨i, ?_, u, (ih u).2 ⟨hu, fun j hj => ?_⟩, rfl⟩
      · have := hm (d + 1) (le_refl _)
        rw [List.getD_append_right _ _ _ _ (by omega)] at this
        simpa [hu] using this
      · have := hm j (by omega)
        rw [List.getD_append _ _ _ _ (by omega)] at this
        exact this

theorem precedes_irrefl (u : List Nat) : ¬ precedes u u := by
  rintro ⟨j, hj, _⟩
  exact lt_irrefl _ hj

/-- The tuples of a loop nest are listed in the order `precedes` when each
dimension is run through in increasing order. -/
theorem pairwise_nest_tuples (rng : Nat → List Nat) :
    ∀ (d : Nat), (∀ j, j ≤ d → (rng j).Pairwise (· < ·)) →
      (nest_tuples rng d).Pairwise precedes := by
  intro d
  induction d with
  | zero =>
    intro h
    simp only [nest_tuples, List.pairwise_map]
    refine (h 0 (le_refl _)).imp ?_
    intro a b hab
    exact ⟨0, by simpa using hab, fun j1 hj1 => by
      rw [List.getD_eq_default _ _ (by simpa using hj1),
        List.getD_eq_default _ _ (by simpa using hj1)]⟩
  | succ d ih =>
    intro h
    simp only [nest_tuples]
    rw [List.pairwise_flatMap]
    constructor
    · intro i _
      rw [List.pairwise_map]
      refine List.Pairwise.imp_of_mem ?_ (ih (fun j hj => h j (by omega)))
      intro u v hu hv ⟨j, hj, hab⟩
      have hlu := length_of_mem_nest_tuples rng d u hu
      have hlv := length_of_mem_nest_tuples rng d v hv
      have hjd : j < d + 1 := by
        by_contra hc
        rw [List.getD_eq_default _ _ (by omega), List.getD_eq_default _ _ (by omega)] at hj
        exact lt_irrefl _ hj
      refine ⟨j, ?_, fun j1 hj1 => ?_⟩
      · rw [List.getD_append _ _ _ _ (by omega), List.getD_append _ _ _ _ (by omega)]
        exact hj
      · by_cases hc : j1 < d + 1
        · rw [List.getD_append _ _ _ _ (by omega), List.getD_append _ _ _ _ (by omega)]
          exact hab j1 hj1
        · rw [List.getD_append_right _ _ _ _ (by omega),
            List.getD_append_right _ _ _ _ (by omega), hlu, hlv]
    · refine (h (d + 1) (le_refl _)).imp ?_
      intro a b hab x hx y hy
      rw [List.mem_map] at hx hy
      obtain ⟨u, hu, rfl⟩ := hx
      obtain ⟨v, hv, rfl⟩ := hy
      have hlu := length_of_mem_nest_tuples rng d u hu
      have hlv := length_of_mem_nest_tuples rng d v hv
      refine ⟨d + 1, ?_, fun j1 hj1 => ?_⟩
      · rw [List.getD_append_right _ _ _ _ (by omega),
          List.getD_append_right _ _ _ _ (by omega), hlu, hlv]
        simpa using hab
      · rw [List.getD_eq_default _ _ (by simp; omega),
          List.getD_eq_default _ _ (by simp; omega)]

theorem nodup_nest_tuples (rng : Nat → List Nat) (d : Nat)
    (h : ∀ j, j ≤ d → (rng j).Pairwise (· < ·)) : (nest_tuples rng d).Nodup := by
  refine (pairwise_nest_tuples rng d h).imp ?_
  intro u v huv he
  subst he
  exact precedes_irrefl u huv

theorem pairwise_loopRange (lower upper : Nat) : (loopRange lower upper).Pairwise (· < ·) :=
  List.pairwise_lt_range' lower _ 1 (by decide)

/-! ## Restricting the search to a box loses nothing -/

theorem le_new_kern_dist_sq (loc : List ℚ) (j i : Nat) (k : ℚ) :
    k ≤ new_kern_dist_sq loc j i k := by
  unfold new_kern_dist_sq
  linarith [mul_self_nonneg ((i : ℚ) - loc.getD j 0)]

theorem nest_entries_nil_of_gt (rng : Nat → List Nat) (loc : List ℚ) (conv : List Nat)
    (hsq : ℚ) (ndims p : Nat) :
    ∀ (d : Nat) (k : ℚ) (tail : List Nat), hsq < k →
      nest_entries rng loc conv hsq ndims p d k tail = [] := by
  intro d
  induction d with
  | zero =>
    intro k tail hk
    simp only [nest_entries, List.flatMap_eq_nil_iff]
    intro i _
    have := le_new_kern_dist_sq loc 0 i k
    unfold grid_leaf
    rw [if_neg (by linarith)]
  | succ d ih =>
    intro k tail hk
    simp only [nest_entries, List.flatMap_eq_nil_iff]
    intro i _
    exact ih _ _ (lt_of_lt_of_le hk (le_new_kern_dist_sq loc (d + 1) i k))

theorem flatMap_filter_nonempty {β : Type} (f : Nat → List β) (l : List Nat) :
    l.flatMap f = (l.filter (fun i => !(f i).isEmpty)).flatMap f := by
  induction l with
  | nil => rfl
  | cons a l ih =>
    rw [List.flatMap_cons, List.filter_cons]
    cases h : f a with
    | nil => simpa using ih
    | cons b bs =>
      simp only [List.isEmpty_cons, Bool.not_false, if_true, List.flatMap_cons, h]
      rw [ih]

theorem flatMap_eq_of_pairwise_lt {β : Type} (f : Nat → List β) (l1 l2 : List Nat)
    (h1 : l1.Pairwise (· < ·)) (h2 : l2.Pairwise (· < ·))
    (h : ∀ i, f i ≠ [] → (i ∈ l1 ↔ i ∈ l2)) : l1.flatMap f = l2.flatMap f := by
  rw [flatMap_filter_nonempty f l1, flatMap_filter_nonempty f l2]
  congr 1
  have s1 : (l1.filter (fun i => !(f i).isEmpty)).Sorted (· < ·) := List.Pairwise.filter _ h1
  have s2 : (l2.filter (fun i => !(f i).isEmpty)).Sorted (· < ·) := List.Pairwise.filter _ h2
  refine List.eq_of_perm_of_sorted ?_ s1 s2
  rw [List.perm_ext_iff_of_nodup s1.nodup s2.nodup]
  intro i
  simp only [List.mem_filter, Bool.not_eq_true', List.isEmpty_eq_false]
  constructor
  · rintro ⟨hm, hn⟩
    exact ⟨(h i hn).1 hm, hn⟩
  · rintro ⟨hm, hn⟩
    exact ⟨(h i hn).2 hm, hn⟩

/-- Two loop nests write the same triples when, in every dimension, their index
lists agree on the indices within the kernel half-width of the location. -/
theorem nest_entries_congr_rng (rng1 rng2 : Nat → List Nat) (loc : List ℚ) (conv : List Nat)
    (hsq : ℚ) (ndims p : Nat) :
    ∀ (d : Nat),
      (∀ j, j ≤ d → (rng1 j).Pairwise (· < ·) ∧ (rng2 j).Pairwise (· < ·) ∧
        ∀ i : Nat, ((i : ℚ) - loc.getD j 0) * ((i : ℚ) - loc.getD j 0) ≤ hsq →
          (i ∈ rng1 j ↔ i ∈ rng2 j)) →
      ∀ (k : ℚ) (tail : List Nat), 0 ≤ k →
        nest_entries rng1 loc conv hsq ndims p d k tail
          = nest_entries rng2 loc conv hsq ndims p d k tail := by
  intro d
  induction d with
  | zero =>
    intro h k tail hk
    simp only [nest_entries]
    obtain ⟨p1, p2, hm⟩ := h 0 (le_refl _)
    apply flatMap_eq_of_pairwise_lt _ _ _ p1 p2
    intro i hi
    apply hm
    by_contra hc
    apply hi
    unfold grid_leaf new_kern_dist_sq
    rw [if_neg (by linarith)]
  | succ d ih =>
    intro h k tail hk
    simp only [nest_entries]
    obtain ⟨p1, p2, hm⟩ := h (d + 1) (le_refl _)
    have hin : ∀ i, nest_entries rng1 loc conv hsq ndims p d
          (new_kern_dist_sq loc (d + 1) i k) (i :: tail)
        = nest_entries rng2 loc conv hsq ndims p d
          (new_kern_dist_sq loc (d + 1) i k) (i :: tail) := fun i =>
      ih (fun j hj => h j (by omega)) _ _ (le_trans hk (le_new_kern_dist_sq loc (d + 1) i k))
    rw [List.flatMap_congr (fun i _ => hin i)]
    apply flatMap_eq_of_pairwise_lt _ _ _ p1 p2
    intro i hi
    apply hm
    by_contra hc
    apply hi
    apply nest_entries_nil_of_gt
    unfold new_kern_dist_sq
    linarith

/-! ## The bounds computed by the controller -/

theorem castUInt_lt (x : ℚ) : castUInt x < 4294967296 := by
  unfold castUInt
  have h1 := Int.emod_nonneg (if 0 ≤ x then ⌊x⌋ else ⌈x⌉) (by decide : (4294967296 : ℤ) ≠ 0)
  have h2 := Int.emod_lt_of_pos (if 0 ≤ x then ⌊x⌋ else ⌈x⌉) (by decide : (0 : ℤ) < 4294967296)
  omega

theorem castUInt_intCast (z : ℤ) (h0 : 0 ≤ z) (h1 : z < 4294967296) :
    castUInt (z : ℚ) = z.toNat := by
  unfold castUInt
  have hz : (0 : ℚ) ≤ (z : ℚ) := by exact_mod_cast h0
  rw [if_pos hz, Int.floor_intCast, Int.emod_eq_of_lt h0 h1]

theorem castUInt_natCast (n : ℕ) (h1 : n < 4294967296) : castUInt (n : ℚ) = n := by
  have := castUInt_intCast (n : ℤ) (by omega) (by omega)
  simpa using this

theorem min_intCast (a b : ℤ) : min (a : ℚ) (b : ℚ) = ((Min.min a b : ℤ) : ℚ) := by
  unfold SparseGridding.min
  by_cases h : a < b
  · rw [if_pos (by exact_mod_cast h), min_eq_left (le_of_lt h)]
  · rw [if_neg (by exact_mod_cast h), min_eq_right (not_lt.mp h)]

theorem max_intCast (a b : ℤ) : max (a : ℚ) (b : ℚ) = ((Max.max a b : ℤ) : ℚ) := by
  unfold SparseGridding.max
  by_cases h : a > b
  · rw [if_pos (by exact_mod_cast h), max_eq_left (le_of_lt h)]
  · rw [if_neg (by exact_mod_cast h), max_eq_right (not_lt.mp h)]

/-- The lower boundary when the conversion is in range: `max(ceil(loc - hw), 0)`. -/
theorem lower_bound_eq (loc hw : ℚ) (h : ⌈loc - hw⌉ < 4294967296) :
    lower_bound loc hw = ⌈loc - hw⌉.toNat := by
  unfold lower_bound
  have h0 : (0 : ℚ) = ((0 : ℤ) : ℚ) := by simp
  rw [h0, max_intCast, castUInt_intCast _ (le_max_right _ _) (max_lt h (by decide))]
  omega

/-- The upper boundary when the conversion is in range:
`min(floor(loc + hw), output_dim - 1)`. -/
theorem upper_bound_eq (loc hw : ℚ) (n : Nat) (h0 : 0 ≤ ⌊loc + hw⌋) (hn : 1 ≤ n)
    (hn2 : n < 4294967296) :
    upper_bound loc hw n = Min.min ⌊loc + hw⌋.toNat (n - 1) := by
  unfold upper_bound
  have hm : (n + 4294967295) % 4294967296 = n - 1 := by omega
  have hc : (((n - 1 : ℕ) : ℚ)) = (((n - 1 : ℕ) : ℤ) : ℚ) := by simp
  rw [hm, hc, min_intCast, castUInt_intCast _ (le_min h0 (by omega))
    (lt_of_le_of_lt (min_le_right _ _) (by omega))]
  omega

theorem near_bounds (loc hw : ℚ) (i : Nat) (hw0 : 0 ≤ hw)
    (h : ((i : ℚ) - loc) * ((i : ℚ) - loc) ≤ hw * hw) :
    ⌈loc - hw⌉ ≤ (i : ℤ) ∧ (i : ℤ) ≤ ⌊loc + hw⌋ := by
  have h1 : (i : ℚ) - loc ≤ hw := by
    by_contra hc
    push_neg at hc
    nlinarith
  have h2 : -hw ≤ (i : ℚ) - loc := by
    by_contra hc
    push_neg at hc
    nlinarith
  constructor
  · rw [Int.ceil_le]
    push_cast
    linarith
  · rw [Int.le_floor]
    push_cast
    linarith

/-- An index within the kernel half-width of the location is in the computed
box exactly when it is in the grid. -/
theorem near_mem_iff (loc hw : ℚ) (n i : Nat) (hw0 : 0 ≤ hw) (hn : 1 ≤ n)
    (hn2 : n < 4294967296)
    (h : ((i : ℚ) - loc) * ((i : ℚ) - loc) ≤ hw * hw) :
    i ∈ loopRange (lower_bound loc hw) (upper_bound loc hw n) ↔ i ∈ List.range n := by
  obtain ⟨hc, hf⟩ := near_bounds loc hw i hw0 h
  rw [mem_loopRange, List.mem_range, upper_bound_eq loc hw n (by omega) hn hn2]
  constructor
  · rintro ⟨_, h2⟩
    have := min_le_right ⌊loc + hw⌋.toNat (n - 1)
    omega
  · intro hi
    rw [lower_bound_eq loc hw (by omega)]
    refine ⟨by omega, le_min (by omega) (by omega)⟩

/-! ## Reading the arrays filled by the controller -/

theorem getD_map_range {α : Type} (f : Nat → α) (n j : Nat) (a : α) (h : j < n) :
    ((List.range n).map f).getD j a = f j := by
  rw [List.getD_eq_getElem _ _ (by simpa using h)]
  simp

theorem length_flatMap_pair (f g : Nat → Nat) (l : List Nat) :
    (l.flatMap (fun d => [f d, g d])).length = 2 * l.length := by
  induction l with
  | nil => rfl
  | cons a l ih => simp only [List.flatMap_cons, List.length_append, ih,
      List.length_cons, List.length_nil]; omega

theorem getD_flatMap_pair (f g : Nat → Nat) (n : Nat) :
    ∀ j, j < n →
      ((List.range n).flatMap (fun d => [f d, g d])).getD (2 * j) 0 = f j ∧
      ((List.range n).flatMap (fun d => [f d, g d])).getD (2 * j + 1) 0 = g j := by
  induction n with
  | zero => intro j hj; omega
  | succ n ih =>
    intro j hj
    rw [List.range_succ, List.flatMap_append]
    have hlen := length_flatMap_pair f g (List.range n)
    rw [List.length_range] at hlen
    by_cases hjn : j < n
    · rw [List.getD_append _ _ _ _ (by omega), List.getD_append _ _ _ _ (by omega)]
      exact ih j hjn
    · have : j = n := by omega
      subst this
      rw [List.getD_append_right _ _ _ _ (by omega),
        List.getD_append_right _ _ _ _ (by omega), hlen]
      have e1 : 2 * j - 2 * j = 0 := by omega
      have e2 : 2 * j + 1 - 2 * j = 1 := by omega
      rw [e1, e2]
      simp

theorem bounds_getD (coords : List ℚ) (w : ℚ) (ndims : Nat) (dims : List Nat) (p j : Nat)
    (hj : j < ndims) :
    (bounds coords w ndims dims p).getD (2 * j) 0
        = lower_bound ((sample_loc coords ndims dims p).getD j 0) (w * (1 / 2)) ∧
      (bounds coords w ndims dims p).getD (2 * j + 1) 0
        = upper_bound ((sample_loc coords ndims dims p).getD j 0) (w * (1 / 2))
            (dims.getD j 0) := by
  unfold bounds
  exact getD_flatMap_pair _ _ ndims j hj

theorem box_rng_bounds (coords : List ℚ) (w : ℚ) (ndims : Nat) (dims : List Nat) (p j : Nat)
    (hj : j < ndims) :
    box_rng (bounds coords w ndims dims p) j
      = loopRange (lower_bound ((sample_loc coords ndims dims p).getD j 0) (w * (1 / 2)))
          (upper_bound ((sample_loc coords ndims dims p).getD j 0) (w * (1 / 2))
            (dims.getD j 0)) := by
  unfold box_rng
  rw [(bounds_getD coords w ndims dims p j hj).1, (bounds_getD coords w ndims dims p j hj).2]

theorem length_seed_init (ndims : Nat) (b : List Nat) : (seed_init ndims b).length = ndims := by
  simp [seed_init]

theorem bounds_lower_lt (coords : List ℚ) (w : ℚ) (ndims : Nat) (dims : List Nat) (p j : Nat) :
    (bounds coords w ndims dims p).getD (2 * j) 0 < 4294967296 := by
  by_cases hj : j < ndims
  · rw [(bounds_getD coords w ndims dims p j hj).1]
    exact castUInt_lt _
  · rw [List.getD_eq_default]
    · decide
    · unfold bounds
      rw [length_flatMap_pair, List.length_range]
      omega

/-! ## One sample -/

/-- Whenever the processing of sample `p` returns, it has appended the triples
of the loop nest over the computed box. -/
theorem sample_step_some (fuel : Nat) (coords : List ℚ) (w : ℚ) (ndims : Nat)
    (dims : List Nat) (p : Nat) (es es1 : List Entry)
    (hn : 1 ≤ ndims) (hn2 : ndims < 4294967296)
    (h : sample_step fuel coords w ndims dims p es = some es1) :
    es1 = es ++ nest_entries (box_rng (bounds coords w ndims dims p))
      (sample_loc coords ndims dims p) (idx_convert ndims dims)
      (w * (1 / 2) * (w * (1 / 2))) ndims p (ndims - 1) 0 [] := by
  unfold sample_step at h
  have hm : (ndims + 4294967295) % 4294967296 = ndims - 1 := by omega
  simp only [hm, Option.map_eq_some'] at h
  obtain ⟨s1, hg, rfl⟩ := h
  have := grid_point_some fuel _ _ _ ndims _ p (ndims - 1) 0 _ s1
    (by simp only [length_seed_init]; omega)
    (fun j _ => bounds_lower_lt coords w ndims dims p j) hg
  have hd : (seed_init ndims (bounds coords w ndims dims p)).drop (ndims - 1 + 1) = [] := by
    apply List.drop_of_length_le
    rw [length_seed_init]
    omega
  simp only [hd] at this
  exact this.2

/-- On a valid grid the loop nest over the computed box writes exactly the
triples of the brute-force reference over the full grid. -/
theorem box_entries_eq_sample_entries (coords : List ℚ) (w : ℚ) (ndims : Nat)
    (dims : List Nat) (p : Nat) (hn : 1 ≤ ndims) (hw : 0 ≤ w)
    (hd : ∀ j, j < ndims → 1 ≤ dims.getD j 0 ∧ dims.getD j 0 < 4294967296) :
    nest_entries (box_rng (bounds coords w ndims dims p))
      (sample_loc coords ndims dims p) (idx_convert ndims dims)
      (w * (1 / 2) * (w * (1 / 2))) ndims p (ndims - 1) 0 []
      = sample_entries coords w ndims dims p := by
  unfold sample_entries grid_tuples
  rw [← nest_entries_eq_filter_map]
  apply nest_entries_congr_rng
  · intro j hj
    have hjn : j < ndims := by omega
    refine ⟨?_, List.pairwise_lt_range _, fun i hi => ?_⟩
    · rw [box_rng_bounds coords w ndims dims p j hjn]
      exact pairwise_loopRange _ _
    · rw [box_rng_bounds coords w ndims dims p j hjn]
      exact near_mem_iff _ _ _ i (by linarith) (hd j hjn).1 (hd j hjn).2 hi
  · exact le_refl _

/-- With every stored upper bound below the largest `unsigned int` and enough
fuel, the processing of sample `p` returns. -/
theorem sample_step_total (fuel : Nat) (coords : List ℚ) (w : ℚ) (ndims : Nat)
    (dims : List Nat) (p : Nat) (es : List Entry)
    (hn : 1 ≤ ndims) (hn2 : ndims < 4294967296)
    (hb : ∀ j, j < ndims →
      (bounds coords w ndims dims p).getD (2 * j + 1) 0 < 4294967295 ∧
      (bounds coords w ndims dims p).getD (2 * j + 1) 0 + 1
        - (bounds coords w ndims dims p).getD (2 * j) 0 < fuel) :
    ∃ es1, sample_step fuel coords w ndims dims p es = some es1 := by
  unfold sample_step
  have hm : (ndims + 4294967295) % 4294967296 = ndims - 1 := by omega
  simp only [hm]
  obtain ⟨s1, h1⟩ := grid_point_total fuel (sample_loc coords ndims dims p)
    (idx_convert ndims dims) (w * (1 / 2) * (w * (1 / 2))) ndims
    (bounds coords w ndims dims p) p (ndims - 1) (fun j hj => hb j (by omega)) 0
    { seed_pt := seed_init ndims (bounds coords w ndims dims p), entries := es }
  exact ⟨s1.entries, by rw [h1]; rfl⟩

theorem sample_loop_some (body : Nat → List Entry → Option (List Entry)) (npts fuel : Nat)
    (s s1 : List Entry)
    (h : forLoop (fun p => decide (p < npts)) body fuel 0 s = some s1) :
    (List.range npts).foldlM (fun s i => body i s) s = some s1 := by
  cases npts with
  | zero =>
    cases fuel with
    | zero => simp [forLoop] at h
    | succ fuel => simpa [forLoop] using h
  | succ n =>
    have hc : (fun p => decide (p < n + 1)) = (fun p => decide (p ≤ n)) := by
      funext p
      simp [Nat.lt_succ_iff]
    rw [hc] at h
    have := forLoop_some n body fuel 0 s s1 (by decide) h
    rw [List.range_eq_range']
    simpa [loopRange] using this

theorem sample_loop_total (body : Nat → List Entry → Option (List Entry)) (npts fuel : Nat)
    (s : List Entry) (hn : npts < 4294967296) (hf : npts < fuel) :
    forLoop (fun p => decide (p < npts)) body fuel 0 s
      = (List.range npts).foldlM (fun s i => body i s) s := by
  cases npts with
  | zero =>
    cases fuel with
    | zero => omega
    | succ fuel => simp [forLoop]
  | succ n =>
    have hc : (fun p => decide (p < n + 1)) = (fun p => decide (p ≤ n)) := by
      funext p
      simp [Nat.lt_succ_iff]
    rw [hc, forLoop_total n body (by omega) fuel 0 s (by omega), List.range_eq_range']
    simp [loopRange]

/-- Whenever the call returns, the output is the concatenation, in increasing
sample order, of the triples written for each sample by the loop nest over its
box. -/
theorem sparse_gridding_distance_some (fuel : Nat) (coords : List ℚ) (w : ℚ)
    (npts ndims : Nat) (dims : List Nat) (out : List Entry)
    (hn : 1 ≤ ndims) (hn2 : ndims < 4294967296)
    (h : sparse_gridding_distance fuel coords w npts ndims dims = some out) :
    out = (List.range npts).flatMap (fun p =>
      nest_entries (box_rng (bounds coords w ndims dims p))
        (sample_loc coords ndims dims p) (idx_convert ndims dims)
        (w * (1 / 2) * (w * (1 / 2))) ndims p (ndims - 1) 0 []) := by
  unfold sparse_gridding_distance at h
  have h1 := sample_loop_some _ npts fuel [] out h
  have := foldlM_spec (fun es : List Entry => es) (fun _ => True) _ _ (List.range npts)
    (fun p _ s s1 _ hb => ⟨trivial, sample_step_some fuel coords w ndims dims p s s1 hn hn2 hb⟩)
    [] out trivial h1
  simpa using this.2

/-- The call returns when `npts` fits an `unsigned int`, every stored upper
bound is below the largest `unsigned int`, and there is enough fuel. -/
theorem sparse_gridding_distance_total (fuel : Nat) (coords : List ℚ) (w : ℚ)
    (npts ndims : Nat) (dims : List Nat)
    (hn : 1 ≤ ndims) (hn2 : ndims < 4294967296) (hp : npts < 4294967296) (hf : npts < fuel)
    (hb : ∀ p, p < npts → ∀ j, j < ndims →
      (bounds coords w ndims dims p).getD (2 * j + 1) 0 < 4294967295 ∧
      (bounds coords w ndims dims p).getD (2 * j + 1) 0 + 1
        - (bounds coords w ndims dims p).getD (2 * j) 0 < fuel) :
    ∃ out, sparse_gridding_distance fuel coords w npts ndims dims = some out := by
  unfold sparse_gridding_distance
  rw [sample_loop_total _ npts fuel [] hp hf]
  apply foldlM_total
  intro p hp1 s
  exact sample_step_total fuel coords w ndims dims p s hn hn2 (hb p (List.mem_range.mp hp1))

/-! ## A stored upper bound equal to the largest `unsigned int` -/

/-- When the upper bound of the outermost loop is the largest `unsigned int`,
`grid_point` never returns. -/
theorem grid_point_diverge (fuel : Nat) (loc : List ℚ) (conv : List Nat) (hsq : ℚ)
    (ndims : Nat) (bnd : List Nat) (p d : Nat) (k : ℚ) (s : GridState)
    (hu : 4294967295 ≤ bnd.getD (2 * d + 1) 0) (hl : bnd.getD (2 * d) 0 < 4294967296) :
    grid_point fuel loc conv hsq ndims bnd p d k s = none := by
  cases d with
  | zero =>
    unfold grid_point
    exact forLoop_diverge _ _ hu fuel _ s hl
  | succ d =>
    unfold grid_point
    exact forLoop_diverge _ _ hu fuel _ s hl

theorem sample_step_diverge (fuel : Nat) (coords : List ℚ) (w : ℚ) (ndims : Nat)
    (dims : List Nat) (p : Nat) (es : List Entry)
    (hu : 4294967295 ≤ (bounds coords w ndims dims p).getD
      (2 * ((ndims + 4294967295) % 4294967296) + 1) 0) :
    sample_step fuel coords w ndims dims p es = none := by
  unfold sample_step
  simp only
  rw [grid_point_diverge fuel _ _ _ ndims _ p _ 0 _ hu (bounds_lower_lt coords w ndims dims p _)]
  rfl

theorem sample_loop_none_of_first (body : Nat → List Entry → Option (List Entry))
    (npts fuel : Nat) (s : List Entry) (hn : 0 < npts) (hb : body 0 s = none) :
    forLoop (fun p => decide (p < npts)) body fuel 0 s = none := by
  cases fuel with
  | zero => rfl
  | succ fuel =>
    have hc : decide (0 < npts) = true := decide_eq_true hn
    simp only [forLoop, hc, if_true, hb]
    rfl

/-! ## An empty outermost loop -/

theorem grid_point_empty (fuel : Nat) (loc : List ℚ) (conv : List Nat) (hsq : ℚ)
    (ndims : Nat) (bnd : List Nat) (p d : Nat) (k : ℚ) (s : GridState)
    (hf : 0 < fuel) (he : bnd.getD (2 * d + 1) 0 < bnd.getD (2 * d) 0) :
    grid_point fuel loc conv hsq ndims bnd p d k s = some s := by
  obtain ⟨f, rfl⟩ : ∃ f, fuel = f + 1 := ⟨fuel - 1, by omega⟩
  have hc : decide (bnd.getD (2 * d) 0 ≤ bnd.getD (2 * d + 1) 0) = false :=
    decide_eq_false (by omega)
  cases d with
  | zero =>
    unfold grid_point
    simp only [forLoop, hc]
    rfl
  | succ d =>
    unfold grid_point
    simp only [forLoop, hc]
    rfl

theorem sample_step_empty (fuel : Nat) (coords : List ℚ) (w : ℚ) (ndims : Nat)
    (dims : List Nat) (p : Nat) (es : List Entry) (hf : 0 < fuel)
    (he : (bounds coords w ndims dims p).getD (2 * ((ndims + 4294967295) % 4294967296) + 1) 0
      < (bounds coords w ndims dims p).getD (2 * ((ndims + 4294967295) % 4294967296)) 0) :
    sample_step fuel coords w ndims dims p es = some es := by
  unfold sample_step
  simp only
  rw [grid_point_empty fuel _ _ _ ndims _ p _ 0 _ hf he]
  rfl

theorem foldlM_id {σ : Type} (body : Nat → σ → Option σ) (l : List Nat)
    (h : ∀ i ∈ l, ∀ s, body i s = some s) (s : σ) :
    l.foldlM (fun s i => body i s) s = some s := by
  induction l with
  | nil => rfl
  | cons a l ih =>
    rw [List.foldlM_cons, h a (List.mem_cons_self _ _) s]
    exact ih (fun i hi => h i (List.mem_cons_of_mem _ hi))

/-- With a negative half-width and conversions in range, the stored box is
empty. -/
theorem bounds_empty_of_neg (loc hw : ℚ) (n : Nat) (hw0 : hw < 0) (h0 : 0 ≤ ⌊loc + hw⌋)
    (h1 : ⌈loc - hw⌉ < 4294967296) (hn : 1 ≤ n) (hn2 : n < 4294967296) :
    upper_bound loc hw n < lower_bound loc hw := by
  rw [upper_bound_eq loc hw n h0 hn hn2, lower_bound_eq loc hw h1]
  have h2 : ⌊loc + hw⌋ < ⌈loc - hw⌉ := by
    rw [Int.floor_lt]
    have := Int.le_ceil (loc - hw)
    linarith
  have := min_le_left ⌊loc + hw⌋.toNat (n - 1)
  omega

/-! ## Invariants that hold whenever a loop returns -/

theorem forLoop_inv {σ : Type} (Inv : σ → Prop) (cond : Nat → Bool)
    (body : Nat → σ → Option σ)
    (hbody : ∀ i s s1, Inv s → body i s = some s1 → Inv s1) :
    ∀ (fuel i : Nat) (s s1 : σ), Inv s → forLoop cond body fuel i s = some s1 → Inv s1 := by
  intro fuel
  induction fuel with
  | zero => intro i s s1 _ h; simp [forLoop] at h
  | succ fuel ih =>
    intro i s s1 hs h
    simp only [forLoop] at h
    by_cases hc : cond i = true
    · rw [if_pos hc] at h
      cases hb : body i s with
      | none => rw [hb] at h; simp at h
      | some s2 =>
        rw [hb] at h
        exact ih _ s2 s1 (hbody i s s2 hs hb) (by simpa using h)
    · rw [if_neg hc] at h
      cases h
      exact hs

theorem grid_point_distance_inv (fuel : Nat) (loc : List ℚ) (conv : List Nat) (hsq : ℚ)
    (ndims : Nat) (bnd : List Nat) (p : Nat) :
    ∀ (d : Nat) (k : ℚ) (s s1 : GridState), 0 ≤ k →
      (∀ e ∈ s.entries, 0 ≤ e.distance ∧ e.distance ≤ hsq) →
      grid_point fuel loc conv hsq ndims bnd p d k s = some s1 →
      ∀ e ∈ s1.entries, 0 ≤ e.distance ∧ e.distance ≤ hsq := by
  intro d
  induction d with
  | zero =>
    intro k s s1 hk hs h
    unfold grid_point at h
    refine forLoop_inv (fun t => ∀ e ∈ t.entries, 0 ≤ e.distance ∧ e.distance ≤ hsq) _ _ ?_
      fuel _ s s1 hs h
    intro i t t1 ht hb
    simp only [Option.some.injEq] at hb
    subst hb
    intro e he
    simp only [grid_leaf] at he
    split at he
    · rename_i hle
      rw [List.mem_append, List.mem_singleton] at he
      rcases he with he | rfl
      · exact ht e he
      · exact ⟨le_trans hk (le_new_kern_dist_sq loc 0 i k), hle⟩
    · exact ht e he
  | succ d ih =>
    intro k s s1 hk hs h
    unfold grid_point at h
    refine forLoop_inv (fun t => ∀ e ∈ t.entries, 0 ≤ e.distance ∧ e.distance ≤ hsq) _ _ ?_
      fuel _ s s1 hs h
    intro i t t1 ht hb
    simp only [Option.map_eq_some'] at hb
    obtain ⟨t2, hg, rfl⟩ := hb
    exact ih _ { seed_pt := t.seed_pt.set (d + 1) i, entries := t.entries } t2
      (le_trans hk (le_new_kern_dist_sq loc (d + 1) i k)) ht hg

theorem linear_index_eq (ndims : Nat) (v stride : List Nat) :
    linear_index ndims v stride = coord_sum ndims v stride % 4294967296 := by
  unfold linear_index coord_sum
  induction ndims with
  | zero => rfl
  | succ n ih =>
    rw [List.range_succ, List.foldl_append, List.map_append, List.sum_append, ih]
    simp only [List.foldl_cons, List.foldl_nil, List.map_cons, List.map_nil, List.sum_cons,
      List.sum_nil, add_zero]
    exact Nat.mod_add_mod _ _ _

/-! ## Strides and the linear index -/

theorem stride_eq_grid_size (dims : List Nat) (n : Nat) : stride dims n = grid_size n dims := by
  unfold grid_size
  induction n with
  | zero => rfl
  | succ n ih =>
    rw [List.range_succ, List.map_append, List.prod_append, ← ih]
    simp [stride]

theorem stride_pos (dims : List Nat) (n : Nat) (h : ∀ j, j < n → 1 ≤ dims.getD j 0) :
    ∀ d, d ≤ n → 0 < stride dims d := by
  intro d
  induction d with
  | zero => intro _; simp [stride]
  | succ d ih =>
    intro hd
    simp only [stride]
    exact Nat.mul_pos (ih (by omega)) (h d (by omega))

theorem stride_le (dims : List Nat) (n : Nat) (h : ∀ j, j < n → 1 ≤ dims.getD j 0) (d : Nat) :
    ∀ m, d ≤ m → m ≤ n → stride dims d ≤ stride dims m := by
  intro m
  induction m with
  | zero =>
    intro h1 _
    have : d = 0 := by omega
    subst this
    exact le_refl _
  | succ m ih =>
    intro h1 h2
    by_cases hd : d = m + 1
    · subst hd; exact le_refl _
    · have := ih (by omega) (by omega)
      simp only [stride]
      exact le_trans this (Nat.le_mul_of_pos_right _ (h m (by omega)))

theorem stride_dvd (dims : List Nat) (d : Nat) :
    ∀ m, d ≤ m → stride dims d ∣ stride dims m := by
  intro m
  induction m with
  | zero =>
    intro h1
    have : d = 0 := by omega
    subst this
    exact dvd_refl _
  | succ m ih =>
    intro h1
    by_cases hd : d = m + 1
    · subst hd; exact dvd_refl _
    · simp only [stride]
      exact Dvd.dvd.mul_right (ih (by omega)) _

theorem foldl_eq_stride (dims : List Nat) :
    ∀ d, (∀ j, j < d → 1 ≤ dims.getD j 0) → stride dims d < 4294967296 →
      (List.range d).foldl (fun acc p => (acc * dims.getD p 0) % 4294967296) 1
        = stride dims d := by
  intro d
  induction d with
  | zero => intro _ _; rfl
  | succ d ih =>
    intro h hlt
    rw [List.range_succ, List.foldl_append]
    simp only [List.foldl_cons, List.foldl_nil]
    have hle := stride_le dims (d + 1) h d (d + 1) (by omega) (le_refl _)
    rw [ih (fun j hj => h j (by omega)) (by omega)]
    simp only [stride] at hlt ⊢
    exact Nat.mod_eq_of_lt hlt

/-- On a valid grid with fewer than `4294967296` voxels, the conversion factors
computed by the code are the exact strides. -/
theorem idx_convert_getD (ndims : Nat) (dims : List Nat)
    (hd : ∀ j, j < ndims → 1 ≤ dims.getD j 0) (hg : grid_size ndims dims < 4294967296)
    (d : Nat) (hdn : d < ndims) :
    (idx_convert ndims dims).getD d 0 = stride dims d := by
  unfold idx_convert
  rw [getD_map_range _ _ _ _ hdn]
  apply foldl_eq_stride dims d (fun j hj => hd j (by omega))
  have := stride_le dims ndims hd d ndims (by omega) (le_refl _)
  rw [stride_eq_grid_size dims ndims] at this
  omega

theorem coord_sum_succ (m : Nat) (t c : List Nat) :
    coord_sum (m + 1) t c = coord_sum m t c + t.getD m 0 * c.getD m 0 := by
  unfold coord_sum
  rw [List.range_succ, List.map_append, List.sum_append]
  simp

theorem coord_sum_congr (n : Nat) (t c : List Nat) (f : Nat → Nat)
    (hc : ∀ j, j < n → c.getD j 0 = f j) :
    ∀ m, m ≤ n → coord_sum m t c = ((List.range m).map (fun j => t.getD j 0 * f j)).sum := by
  intro m hm
  unfold coord_sum
  congr 1
  apply List.map_congr_left
  intro j hj
  rw [hc j (by rw [List.mem_range] at hj; omega)]

theorem coord_sum_lt (n : Nat) (dims t c : List Nat)
    (hc : ∀ j, j < n → c.getD j 0 = stride dims j)
    (ht : ∀ j, j < n → t.getD j 0 < dims.getD j 0) :
    ∀ m, m ≤ n → coord_sum m t c < stride dims m := by
  intro m
  induction m with
  | zero => intro _; simp [stride, coord_sum]
  | succ m ih =>
    intro hm
    rw [coord_sum_succ, hc m (by omega)]
    simp only [stride]
    have h1 := ih (by omega)
    have h2 := ht m (by omega)
    calc coord_sum m t c + t.getD m 0 * stride dims m
        < stride dims m + t.getD m 0 * stride dims m := by omega
      _ = (t.getD m 0 + 1) * stride dims m := by ring
      _ ≤ dims.getD m 0 * stride dims m := Nat.mul_le_mul_right _ (by omega)
      _ = stride dims m * dims.getD m 0 := by ring

/-- Mixed-radix decoding: coordinate `d` of the sum `sum_j t[j] * stride[j]` is
`t[d]`. -/
theorem decode_coord (n : Nat) (dims t c : List Nat)
    (hd : ∀ j, j < n → 1 ≤ dims.getD j 0)
    (hc : ∀ j, j < n → c.getD j 0 = stride dims j)
    (ht : ∀ j, j < n → t.getD j 0 < dims.getD j 0) (d : Nat) :
    ∀ m, d < m → m ≤ n →
      (coord_sum m t c / stride dims d) % dims.getD d 0 = t.getD d 0 := by
  intro m
  induction m with
  | zero => intro h _; omega
  | succ m ih =>
    intro h1 h2
    have hpos := stride_pos dims n hd d (by omega)
    rw [coord_sum_succ, hc m (by omega)]
    by_cases hdm : d = m
    · subst hdm
      have hlt := coord_sum_lt n dims t c hc ht d (by omega)
      rw [Nat.add_mul_div_right _ _ hpos, Nat.div_eq_of_lt hlt, Nat.zero_add]
      exact Nat.mod_eq_of_lt (ht d (by omega))
    · obtain ⟨q, hq⟩ := stride_dvd dims (d + 1) m (by omega)
      have e : t.getD m 0 * stride dims m
          = (t.getD m 0 * q * dims.getD d 0) * stride dims d := by
        rw [hq]
        simp only [stride]
        ring
      rw [e, Nat.add_mul_div_right _ _ hpos, Nat.add_mul_mod_self_right]
      exact ih (by omega) (by omega)

theorem eq_map_getD_range (t : List Nat) (n : Nat) (h : t.length = n) :
    t = (List.range n).map (fun j => t.getD j 0) := by
  apply List.ext_getElem
  · simp [h]
  · intro i h1 h2
    simp [List.getElem?_eq_getElem h1]

/-- On a valid grid, decoding the exact linear index of an in-grid coordinate
gives the coordinate back. -/
theorem decode_coord_sum (ndims : Nat) (dims t : List Nat)
    (hd : ∀ j, j < ndims → 1 ≤ dims.getD j 0) (hg : grid_size ndims dims < 4294967296)
    (hl : t.length = ndims) (ht : ∀ j, j < ndims → t.getD j 0 < dims.getD j 0) :
    decode ndims dims (coord_sum ndims t (idx_convert ndims dims)) = t := by
  rw [eq_map_getD_range t ndims hl]
  unfold decode
  apply List.map_congr_left
  intro d hdn
  rw [List.mem_range] at hdn
  rw [← eq_map_getD_range t ndims hl, idx_convert_getD ndims dims hd hg d hdn]
  exact decode_coord ndims dims t _ hd (idx_convert_getD ndims dims hd hg) ht d ndims hdn
    (le_refl _)

/-! ## The written triples and their coordinates -/

theorem sparse_gridding_distance_emitted (fuel : Nat) (coords : List ℚ) (w : ℚ)
    (npts ndims : Nat) (dims : List Nat) (out : List Entry)
    (hn : 1 ≤ ndims) (hn2 : ndims < 4294967296)
    (h : sparse_gridding_distance fuel coords w npts ndims dims = some out) :
    out = (List.range npts).flatMap (fun p =>
      (emitted_tuples coords w ndims dims p).map
        (entry_of (sample_loc coords ndims dims p) (idx_convert ndims dims) ndims p)) := by
  rw [sparse_gridding_distance_some fuel coords w npts ndims dims out hn hn2 h]
  apply List.flatMap_congr
  intro p _
  rw [nest_entries_eq_filter_map]
  rfl

theorem sparse_gridding_distance_npts (fuel : Nat) (coords : List ℚ) (w : ℚ)
    (npts ndims : Nat) (dims : List Nat) (out : List Entry)
    (h : sparse_gridding_distance fuel coords w npts ndims dims = some out) :
    npts < 4294967296 := by
  by_contra hc
  obtain ⟨n, rfl⟩ : ∃ n, npts = n + 1 := ⟨npts - 1, by omega⟩
  unfold sparse_gridding_distance at h
  have he : (fun p => decide (p < n + 1)) = (fun p => decide (p ≤ n)) := by
    funext p
    simp [Nat.lt_succ_iff]
  rw [he, forLoop_diverge n _ (by omega) fuel 0 [] (by decide)] at h
  simp at h

theorem term_le_sum (l : List ℚ) (h : ∀ x ∈ l, 0 ≤ x) : ∀ x ∈ l, x ≤ l.sum := by
  induction l with
  | nil => intro x hx; simp at hx
  | cons a l ih =>
    intro x hx
    rw [List.sum_cons]
    have ha : 0 ≤ a := h a (List.mem_cons_self _ _)
    have hl : 0 ≤ l.sum := List.sum_nonneg (fun y hy => h y (List.mem_cons_of_mem _ hy))
    rcases List.mem_cons.mp hx with rfl | hx1
    · linarith
    · have := ih (fun y hy => h y (List.mem_cons_of_mem _ hy)) x hx1
      linarith

theorem term_le_dist_sq (loc : List ℚ) (v : List Nat) (j : Nat) (hj : j < v.length) :
    ((v.getD j 0 : ℚ) - loc.getD j 0) * ((v.getD j 0 : ℚ) - loc.getD j 0) ≤ dist_sq loc v := by
  unfold dist_sq
  apply term_le_sum
  · intro x hx
    rw [List.mem_map] at hx
    obtain ⟨i, _, rfl⟩ := hx
    exact mul_self_nonneg _
  · rw [List.mem_map]
    exact ⟨j, List.mem_range.mpr hj, rfl⟩

theorem dims_lt (ndims : Nat) (dims : List Nat) (hd : ∀ j, j < ndims → 1 ≤ dims.getD j 0)
    (hg : grid_size ndims dims < 4294967296) (j : Nat) (hj : j < ndims) :
    dims.getD j 0 < 4294967296 := by
  have h1 := stride_le dims ndims hd (j + 1) ndims (by omega) (le_refl _)
  have h2 := stride_pos dims ndims hd j (by omega)
  rw [stride_eq_grid_size dims ndims] at h1
  simp only [stride] at h1
  have h3 : dims.getD j 0 ≤ stride dims j * dims.getD j 0 := Nat.le_mul_of_pos_left _ h2
  omega

/-- On a valid grid, every coordinate for which a triple is written lies in the
grid. -/
theorem emitted_in_grid (coords : List ℚ) (w : ℚ) (ndims : Nat) (dims : List Nat) (p : Nat)
    (hn : 1 ≤ ndims) (hw : 0 ≤ w)
    (hd : ∀ j, j < ndims → 1 ≤ dims.getD j 0 ∧ dims.getD j 0 < 4294967296)
    (v : List Nat) (hv : v ∈ emitted_tuples coords w ndims dims p) :
    v.length = ndims ∧ (∀ j, j < ndims → v.getD j 0 < dims.getD j 0) ∧
      dist_sq (sample_loc coords ndims dims p) v ≤ w * (1 / 2) * (w * (1 / 2)) := by
  unfold emitted_tuples at hv
  rw [List.mem_filter, mem_nest_tuples] at hv
  obtain ⟨⟨hl, hm⟩, hdist⟩ := hv
  have hdist1 := of_decide_eq_true hdist
  have e : ndims - 1 + 1 = ndims := by omega
  rw [e] at hl
  refine ⟨hl, fun j hj => ?_, hdist1⟩
  have h1 := hm j (by omega)
  rw [box_rng_bounds coords w ndims dims p j hj] at h1
  have h2 := (near_mem_iff _ (w * (1 / 2)) (dims.getD j 0) (v.getD j 0) (by linarith)
    (hd j hj).1 (hd j hj).2
    (le_trans (term_le_dist_sq _ v j (by omega)) hdist1)).1 h1
  exact List.mem_range.mp h2

/-- On a valid grid with fewer than `4294967296` voxels, every written triple
comes from a sample `p` and an in-grid coordinate `v` within the kernel
half-width, and stores `p + 1`, the exact linear index of `v` plus one, and the
squared distance from `v` to the location of the sample. -/
theorem mem_output (fuel : Nat) (coords : List ℚ) (w : ℚ) (npts ndims : Nat)
    (dims : List Nat) (out : List Entry)
    (hn : 1 ≤ ndims) (hn2 : ndims < 4294967296) (hw : 0 ≤ w)
    (hd : ∀ j, j < ndims → 1 ≤ dims.getD j 0) (hg : grid_size ndims dims < 4294967296)
    (h : sparse_gridding_distance fuel coords w npts ndims dims = some out)
    (e : Entry) (he : e ∈ out) :
    ∃ p v, p < npts ∧ v.length = ndims ∧ (∀ j, j < ndims → v.getD j 0 < dims.getD j 0) ∧
      dist_sq (sample_loc coords ndims dims p) v ≤ w * (1 / 2) * (w * (1 / 2)) ∧
      e.sample = p + 1 ∧
      e.voxel = coord_sum ndims v (idx_convert ndims dims) + 1 ∧
      e.distance = dist_sq (sample_loc coords ndims dims p) v ∧
      coord_sum ndims v (idx_convert ndims dims) < grid_size ndims dims ∧
      decode ndims dims (coord_sum ndims v (idx_convert ndims dims)) = v := by
  have hnp := sparse_gridding_distance_npts fuel coords w npts ndims dims out h
  rw [sparse_gridding_distance_emitted fuel coords w npts ndims dims out hn hn2 h] at he
  rw [List.mem_flatMap] at he
  obtain ⟨p, hp, he1⟩ := he
  rw [List.mem_map] at he1
  obtain ⟨v, hv, rfl⟩ := he1
  rw [List.mem_range] at hp
  obtain ⟨hl, hin, hdist⟩ := emitted_in_grid coords w ndims dims p hn hw
    (fun j hj => ⟨hd j hj, dims_lt ndims dims hd hg j hj⟩) v hv
  have hlt := coord_sum_lt ndims dims v (idx_convert ndims dims)
    (idx_convert_getD ndims dims hd hg) hin ndims (le_refl _)
  rw [stride_eq_grid_size] at hlt
  refine ⟨p, v, hp, hl, hin, hdist, ?_, ?_, rfl, hlt, decode_coord_sum ndims dims v hd hg hl hin⟩
  · simp only [entry_of]
    exact Nat.mod_eq_of_lt (by omega)
  · simp only [entry_of, linear_index_eq]
    rw [Nat.mod_eq_of_lt (by omega)]

theorem sample_loc_getD (coords : List ℚ) (ndims : Nat) (dims : List Nat) (p d : Nat)
    (hd : d < ndims) (hlt : dims.getD d 0 < 4294967296) :
    (sample_loc coords ndims dims p).getD d 0
      = coord coords ndims p d * ((dims.getD d 0 : ℕ) : ℚ)
        + ((⌈((dims.getD d 0 : ℕ) : ℚ) / 2⌉ : ℤ) : ℚ) := by
  unfold sample_loc
  rw [getD_map_range _ _ _ _ hd]
  congr 1
  unfold output_halfwidth
  rw [getD_map_range _ _ _ _ hd]
  have e : ((dims.getD d 0 : ℕ) : ℚ) * (1 / 2) = ((dims.getD d 0 : ℕ) : ℚ) / 2 := by ring
  rw [e]
  have h0 : 0 ≤ ⌈((dims.getD d 0 : ℕ) : ℚ) / 2⌉ := by
    apply Int.ceil_nonneg
    positivity
  have h1 : ⌈((dims.getD d 0 : ℕ) : ℚ) / 2⌉ < 4294967296 := by
    have hle : ⌈((dims.getD d 0 : ℕ) : ℚ) / 2⌉ ≤ ((dims.getD d 0 : ℕ) : ℤ) := by
      rw [Int.ceil_le]
      push_cast
      have : (0 : ℚ) ≤ ((dims.getD d 0 : ℕ) : ℚ) := by positivity
      linarith
    omega
  rw [castUInt_intCast _ h0 h1]
  have := Int.toNat_of_nonneg h0
  exact_mod_cast this

/-- On a valid grid the call returns when, for every sample and dimension,
`floor(voxel_loc + halfwidth)` is not negative, and the fuel exceeds `npts` and
every grid dimension. -/
theorem sparse_gridding_distance_returns (fuel : Nat) (coords : List ℚ) (w : ℚ)
    (npts ndims : Nat) (dims : List Nat)
    (hn : 1 ≤ ndims) (hn2 : ndims < 4294967296) (hp : npts < 4294967296) (hf : npts < fuel)
    (hd : ∀ j, j < ndims → 1 ≤ dims.getD j 0 ∧ dims.getD j 0 < 4294967296 ∧
      dims.getD j 0 < fuel)
    (hr : ∀ p, p < npts → ∀ j, j < ndims →
      0 ≤ ⌊(sample_loc coords ndims dims p).getD j 0 + w * (1 / 2)⌋) :
    ∃ out, sparse_gridding_distance fuel coords w npts ndims dims = some out := by
  apply sparse_gridding_distance_total fuel coords w npts ndims dims hn hn2 hp hf
  intro p hp1 j hj
  rw [(bounds_getD coords w ndims dims p j hj).2,
    upper_bound_eq _ _ _ (hr p hp1 j hj) (hd j hj).1 (hd j hj).2.1]
  have h1 := min_le_right
    ⌊(sample_loc coords ndims dims p).getD j 0 + w * (1 / 2)⌋.toNat (dims.getD j 0 - 1)
  have h2 := (hd j hj).1
  have h3 := (hd j hj).2.1
  have h4 := (hd j hj).2.2
  constructor
  · omega
  · omega

/-- C1 (the code at a failing input): grid `[4]`, width 1, two samples at
`-4/5` and `0`. The brute-force enumeration over the full grid gives no voxel for
sample 0 and voxel 2 for sample 1, but the stored upper bound of sample 0 is
`4294967295`, so the call never returns, whatever the fuel, and the triple of
sample 1 is never written. -/
theorem C1_no_result_on_low_sample :
    bounds [-4/5, 0] 1 1 [4] 0 = [0, 4294967295] ∧
    (¬ ∃ fuel out, sparse_gridding_distance fuel [-4/5, 0] 1 2 1 [4] = some out) ∧
    sample_entries [-4/5, 0] 1 1 [4] 0 = [] ∧
    sample_entries [-4/5, 0] 1 1 [4] 1 = [{ sample := 2, voxel := 3, distance := 0 }] := by
  refine ⟨by decide!, ?_, by decide!, by decide!⟩
  rintro ⟨fuel, out, h⟩
  unfold sparse_gridding_distance at h
  rw [sample_loop_none_of_first _ 2 fuel [] (by decide)
    (sample_step_diverge fuel _ _ _ _ 0 [] (by decide!))] at h
  simp at h

/-- C4: for every input, whenever the call returns, every written triple has
`0 <= distance_sq` and `distance_sq <= (kernel_width/2)^2`. -/
theorem C4_distance_within_halfwidth (fuel : Nat) (coords : List ℚ) (w : ℚ)
    (npts ndims : Nat) (dims : List Nat) (out : List Entry)
    (h : sparse_gridding_distance fuel coords w npts ndims dims = some out) :
    ∀ e ∈ out, 0 ≤ e.distance ∧ e.distance ≤ (w / 2) ^ 2 := by
  have hq : (w / 2) ^ 2 = w * (1 / 2) * (w * (1 / 2)) := by ring
  rw [hq]
  unfold sparse_gridding_distance at h
  refine forLoop_inv
    (fun es : List Entry => ∀ e ∈ es, 0 ≤ e.distance ∧ e.distance ≤ w * (1 / 2) * (w * (1 / 2)))
    _ _ ?_ fuel 0 [] out (by simp) h
  intro p es es1 hes hb
  unfold sample_step at hb
  simp only [Option.map_eq_some'] at hb
  obtain ⟨s1, hg, rfl⟩ := hb
  exact grid_point_distance_inv fuel _ _ _ ndims _ p _ 0 _ s1 (le_refl _) hes hg

/-- C4 (witness): grid `[8]`, one sample at `0`, width 2; the first written
triple has distance 1. -/
theorem C4_distance_within_halfwidth_witness :
    sparse_gridding_distance 20 [0] 2 1 1 [8]
      = some [{ sample := 1, voxel := 4, distance := 1 },
              { sample := 1, voxel := 5, distance := 0 },
              { sample := 1, voxel := 6, distance := 1 }] ∧
    (0 ≤ ({ sample := 1, voxel := 4, distance := 1 } : Entry).distance ∧
      ({ sample := 1, voxel := 4, distance := 1 } : Entry).distance ≤ ((2 : ℚ) / 2) ^ 2) :=
  ⟨by decide!,
    C4_distance_within_halfwidth 20 [0] 2 1 1 [8]
      [{ sample := 1, voxel := 4, distance := 1 }, { sample := 1, voxel := 5, distance := 0 },
        { sample := 1, voxel := 6, distance := 1 }] (by decide!)
      { sample := 1, voxel := 4, distance := 1 } (List.mem_cons_self _ _)⟩

/-- C6 (the claim as stated fails): for grid `[8]`, one sample at `0` and width
2, the stored box is not `[3,4]` and the call writes three triples, not two. -/
theorem C6_box_and_count_differ :
    bounds [0] 2 1 [8] 0 ≠ [3, 4] ∧
    (sparse_gridding_distance 20 [0] 2 1 1 [8]).map List.length = some 3 := by
  constructor <;> decide!

/-- C6 (amended): for `ndims = 1`, `output_dims = [8]`, one sample at `0` and
`kernel_width = 2`, the call computes `voxel_loc = 4` and the box `[3,5]`, and
(with enough fuel) writes exactly three triples, in this order: voxel 3 (stored
one-based as 4) with distance 1, voxel 4 (stored as 5) with distance 0, voxel 5
(stored as 6) with distance 1, each with the stored sample index 1. -/
theorem C6_scenario (fuel : Nat) (hf : 4 ≤ fuel) :
    sample_loc [0] 1 [8] 0 = [4] ∧
    bounds [0] 2 1 [8] 0 = [3, 5] ∧
    sparse_gridding_distance fuel [0] 2 1 1 [8]
      = some [{ sample := 1, voxel := 4, distance := 1 },
              { sample := 1, voxel := 5, distance := 0 },
              { sample := 1, voxel := 6, distance := 1 }] := by
  have hb : bounds [0] 2 1 [8] 0 = [3, 5] := by decide!
  refine ⟨by decide!, hb, ?_⟩
  obtain ⟨out, h⟩ := sparse_gridding_distance_total fuel [0] 2 1 1 [8] (by decide) (by decide)
    (by decide) (by omega)
    (by
      intro p hp j hj
      have h1 : p = 0 := by omega
      have h2 : j = 0 := by omega
      subst h1 h2
      rw [hb]
      have e1 : [3, 5].getD (2 * 0 + 1) 0 = 5 := rfl
      have e2 : [3, 5].getD (2 * 0) 0 = 3 := rfl
      rw [e1, e2]
      omega)
  rw [h, sparse_gridding_distance_some fuel [0] 2 1 1 [8] out (by decide) (by decide) h]
  decide!

/-- C6 (witness): fuel 4. -/
theorem C6_scenario_witness :
    sample_loc [0] 1 [8] 0 = [4] ∧
    bounds [0] 2 1 [8] 0 = [3, 5] ∧
    sparse_gridding_distance 4 [0] 2 1 1 [8]
      = some [{ sample := 1, voxel := 4, distance := 1 },
              { sample := 1, voxel := 5, distance := 0 },
              { sample := 1, voxel := 6, distance := 1 }] :=
  C6_scenario 4 (by decide)

/-- C10 (the claim as stated fails): `grid_point` called for the sample with
loop index 0 on the box `[3,5]` with stride 1 stores the sample index 1 (not 0)
and the voxel indices 4, 5, 6 (not 3, 4, 5). -/
theorem C10_offset_applied :
    grid_point 20 [4] [1] 1 1 [3, 5] 0 0 0 { seed_pt := [3], entries := [] }
      = some { seed_pt := [3],
               entries := [{ sample := 1, voxel := 4, distance := 1 },
                           { sample := 1, voxel := 5, distance := 0 },
                           { sample := 1, voxel := 6, distance := 1 }] } := by
  decide!

/-- C10 (amended): whenever the call `grid_point(cur_dim = ndims-1,
kern_dist_sq = 0)` for the sample with loop index `p` returns, each triple it
has appended for an integer coordinate `v` of the box stores the sample index
`p + 1` and the voxel index `(sum_d v[d]*idx_convert[d] mod 4294967296) + 1`:
both are one-based, the offset `+1` is applied inside the core. -/
theorem C10_stored_indices_one_based (fuel : Nat) (loc : List ℚ) (conv : List Nat) (hsq : ℚ)
    (ndims : Nat) (bnd : List Nat) (p : Nat) (seed : List Nat) (es : List Entry)
    (s1 : GridState)
    (hn : 1 ≤ ndims) (hs : seed.length = ndims) (hp : p < 4294967295)
    (hb : ∀ j, j < ndims → bnd.getD (2 * j) 0 < 4294967296)
    (h : grid_point fuel loc conv hsq ndims bnd p (ndims - 1) 0
      { seed_pt := seed, entries := es } = some s1) :
    s1.entries = es ++
      ((nest_tuples (box_rng bnd) (ndims - 1)).filter
        (fun v => decide (dist_sq loc v ≤ hsq))).map
        (fun v => { sample := p + 1,
                    voxel := coord_sum ndims v conv % 4294967296 + 1,
                    distance := dist_sq loc v }) := by
  have h2 := (grid_point_some fuel loc conv hsq ndims bnd p (ndims - 1) 0 _ s1
    (by simp only [hs]; omega) (fun j hj => hb j (by omega)) h).2
  have hd : seed.drop (ndims - 1 + 1) = [] := by
    apply List.drop_of_length_le
    omega
  simp only [hd, nest_entries_eq_filter_map] at h2
  rw [h2]
  congr 1
  apply List.map_congr_left
  intro v _
  simp only [entry_of, linear_index_eq]
  have : (p + 1) % 4294967296 = p + 1 := Nat.mod_eq_of_lt (by omega)
  rw [this]

/-- C10 (witness): the sample with loop index 0 on the box `[3,5]` with stride 1. -/
theorem C10_stored_indices_one_based_witness :
    ({ seed_pt := [3],
       entries := [{ sample := 1, voxel := 4, distance := 1 },
                   { sample := 1, voxel := 5, distance := 0 },
                   { sample := 1, voxel := 6, distance := 1 }] } : GridState).entries
      = [] ++
      ((nest_tuples (box_rng [3, 5]) (1 - 1)).filter
        (fun v => decide (dist_sq [4] v ≤ 1))).map
        (fun v => { sample := 0 + 1,
                    voxel := coord_sum 1 v [1] % 4294967296 + 1,
                    distance := dist_sq [4] v }) :=
  C10_stored_indices_one_based 20 [4] [1] 1 1 [3, 5] 0 [3] [] _ (by decide) rfl (by decide)
    (by
      intro j hj
      have : j = 0 := by omega
      subst this
      decide)
    (by decide!)

/-- C3 (the claim as stated fails): for grid `[8]`, one sample at `3/8` and
width 2, the second written triple stores the voxel index 8, which is not below
the product 8 of `output_dims`. -/
theorem C3_stored_index_reaches_product :
    sparse_gridding_distance 20 [3/8] 2 1 1 [8]
      = some [{ sample := 1, voxel := 7, distance := 1 },
              { sample := 1, voxel := 8, distance := 0 }] ∧
    ¬ (({ sample := 1, voxel := 8, distance := 0 } : Entry).voxel < grid_size 1 [8]) := by
  constructor <;> decide!

/-- C3 (amended): for every valid input (`ndims >= 1`, `width > 0`, every
`output_dims[d] >= 1`, product of `output_dims` below `2^32`), every triple
written by a call that returns stores a one-based voxel index:
`1 <= voxel <= product of output_dims`; and decoding the zero-based index
`voxel - 1` with the strides and the shape gives an integer coordinate whose
every axis lies in `[0, output_dims[d]-1]` and whose linear index
`sum_d coordinate[d]*stride[d]` is `voxel - 1` again. The call does return when
no `floor(voxel_loc + halfwidth)` is negative and the fuel exceeds `npts` and
every grid dimension. -/
theorem C3_voxel_index_one_based_in_range (fuel : Nat) (coords : List ℚ) (w : ℚ)
    (npts ndims : Nat) (dims : List Nat)
    (hn : 1 ≤ ndims) (hn2 : ndims < 4294967296) (hw : 0 < w)
    (hd : ∀ j, j < ndims → 1 ≤ dims.getD j 0) (hg : grid_size ndims dims < 4294967296) :
    (∀ out, sparse_gridding_distance fuel coords w npts ndims dims = some out →
      ∀ e ∈ out, 1 ≤ e.voxel ∧ e.voxel ≤ grid_size ndims dims ∧
        (∀ d, d < ndims → (decode ndims dims (e.voxel - 1)).getD d 0 < dims.getD d 0) ∧
        coord_sum ndims (decode ndims dims (e.voxel - 1)) (idx_convert ndims dims)
          = e.voxel - 1) ∧
    (npts < 4294967296 → npts < fuel → (∀ j, j < ndims → dims.getD j 0 < fuel) →
      (∀ p, p < npts → ∀ j, j < ndims →
        0 ≤ ⌊(sample_loc coords ndims dims p).getD j 0 + w * (1 / 2)⌋) →
      ∃ out, sparse_gridding_distance fuel coords w npts ndims dims = some out) := by
  constructor
  · intro out h e he
    obtain ⟨p, v, _, _, hin, _, _, hv, _, hlt, hdec⟩ :=
      mem_output fuel coords w npts ndims dims out hn hn2 (le_of_lt hw) hd hg h e he
    have e1 : e.voxel - 1 = coord_sum ndims v (idx_convert ndims dims) := by omega
    rw [e1, hdec]
    exact ⟨by omega, by omega, hin, rfl⟩
  · intro hp hf hdf hr
    exact sparse_gridding_distance_returns fuel coords w npts ndims dims hn hn2 hp hf
      (fun j hj => ⟨hd j hj, dims_lt ndims dims hd hg j hj, hdf j hj⟩) hr

/-- C3 (witness): grid `[8]`, one sample at `3/8`, width 2; the call returns
and the triple with the stored voxel index 8 satisfies the amended bounds. -/
theorem C3_voxel_index_one_based_in_range_witness :
    (∃ out, sparse_gridding_distance 20 [3/8] 2 1 1 [8] = some out) ∧
    1 ≤ ({ sample := 1, voxel := 8, distance := 0 } : Entry).voxel ∧
    ({ sample := 1, voxel := 8, distance := 0 } : Entry).voxel ≤ grid_size 1 [8] ∧
    (∀ d, d < 1 →
      (decode 1 [8] (({ sample := 1, voxel := 8, distance := 0 } : Entry).voxel - 1)).getD d 0
        < [8].getD d 0) ∧
    coord_sum 1 (decode 1 [8] (({ sample := 1, voxel := 8, distance := 0 } : Entry).voxel - 1))
        (idx_convert 1 [8])
      = ({ sample := 1, voxel := 8, distance := 0 } : Entry).voxel - 1 :=
  have hd : ∀ j, j < 1 → 1 ≤ [8].getD j 0 := by
    intro j hj
    have : j = 0 := by omega
    subst this
    decide
  have hc := C3_voxel_index_one_based_in_range 20 [3/8] 2 1 1 [8]
    (by decide) (by decide) (by norm_num) hd (by decide)
  ⟨hc.2 (by decide) (by decide)
      (by
        intro j hj
        have : j = 0 := by omega
        subst this
        decide)
      (by
        intro p hp j hj
        have h1 : p = 0 := by omega
        have h2 : j = 0 := by omega
        subst h1 h2
        decide!),
    hc.1 [{ sample := 1, voxel := 7, distance := 1 }, { sample := 1, voxel := 8, distance := 0 }]
      (by decide!) { sample := 1, voxel := 8, distance := 0 } (by simp)⟩

/-- C5 (the claim as stated fails): for grid `[8]`, one sample at `0` and width
2, the first written triple has stored voxel index 4 and distance 1, but the
stored index 4 decodes to the coordinate `[4]`, whose squared distance to the
location `[4]` of the sample is 0. -/
theorem C5_stored_index_decodes_to_neighbour :
    sparse_gridding_distance 20 [0] 2 1 1 [8]
      = some [{ sample := 1, voxel := 4, distance := 1 },
              { sample := 1, voxel := 5, distance := 0 },
              { sample := 1, voxel := 6, distance := 1 }] ∧
    decode 1 [8] 4 = [4] ∧
    dist_sq (sample_loc [0] 1 [8] 0) (decode 1 [8] 4) = 0 ∧
    ({ sample := 1, voxel := 4, distance := 1 } : Entry).distance
      ≠ dist_sq (sample_loc [0] 1 [8] 0)
          (decode 1 [8] ({ sample := 1, voxel := 4, distance := 1 } : Entry).voxel) := by
  refine ⟨by decide!, by decide!, by decide!, by decide!⟩

/-- C5 (amended): for every valid input, every triple
`(p + 1, voxel, distance_sq)` written by a call that returns (sample and voxel
are stored one-based) has `distance_sq = sum_d (v[d] - voxel_loc[d])^2`, where
`v` is the integer coordinate that the zero-based index `voxel - 1` decodes to
and `voxel_loc[d] = coord[p][d]*output_dims[d] + ceil(output_dims[d]/2)` is the
unclamped location of sample `p`. The call does return when no
`floor(voxel_loc + halfwidth)` is negative and the fuel exceeds `npts` and
every grid dimension. -/
theorem C5_distance_to_unclamped_location (fuel : Nat) (coords : List ℚ) (w : ℚ)
    (npts ndims : Nat) (dims : List Nat)
    (hn : 1 ≤ ndims) (hn2 : ndims < 4294967296) (hw : 0 < w)
    (hd : ∀ j, j < ndims → 1 ≤ dims.getD j 0) (hg : grid_size ndims dims < 4294967296) :
    (∀ out, sparse_gridding_distance fuel coords w npts ndims dims = some out →
      ∀ e ∈ out, ∃ p, p < npts ∧ e.sample = p + 1 ∧
        e.distance
          = dist_sq (sample_loc coords ndims dims p) (decode ndims dims (e.voxel - 1)) ∧
        ∀ d, d < ndims → (sample_loc coords ndims dims p).getD d 0
          = coord coords ndims p d * ((dims.getD d 0 : ℕ) : ℚ)
            + ((⌈((dims.getD d 0 : ℕ) : ℚ) / 2⌉ : ℤ) : ℚ)) ∧
    (npts < 4294967296 → npts < fuel → (∀ j, j < ndims → dims.getD j 0 < fuel) →
      (∀ p, p < npts → ∀ j, j < ndims →
        0 ≤ ⌊(sample_loc coords ndims dims p).getD j 0 + w * (1 / 2)⌋) →
      ∃ out, sparse_gridding_distance fuel coords w npts ndims dims = some out) := by
  constructor
  · intro out h e he
    obtain ⟨p, v, hp, _, _, _, hs, hv, hdist, _, hdec⟩ :=
      mem_output fuel coords w npts ndims dims out hn hn2 (le_of_lt hw) hd hg h e he
    have e1 : e.voxel - 1 = coord_sum ndims v (idx_convert ndims dims) := by omega
    refine ⟨p, hp, hs, ?_, fun d hdn =>
      sample_loc_getD coords ndims dims p d hdn (dims_lt ndims dims hd hg d hdn)⟩
    rw [e1, hdec, hdist]
  · intro hp hf hdf hr
    exact sparse_gridding_distance_returns fuel coords w npts ndims dims hn hn2 hp hf
      (fun j hj => ⟨hd j hj, dims_lt ndims dims hd hg j hj, hdf j hj⟩) hr

/-- C5 (witness): grid `[4]`, one sample at `-3/5`, width 2. The location is
`-2/5`, the box is clamped to `[0,0]`, the call returns, and the distance
stored for voxel 0 is `4/25`, measured to `-2/5`. -/
theorem C5_distance_to_unclamped_location_witness :
    bounds [-3/5] 2 1 [4] 0 = [0, 0] ∧
    (∃ out, sparse_gridding_distance 20 [-3/5] 2 1 1 [4] = some out) ∧
    ∃ p, p < 1 ∧ ({ sample := 1, voxel := 1, distance := 4/25 } : Entry).sample = p + 1 ∧
      ({ sample := 1, voxel := 1, distance := 4/25 } : Entry).distance
        = dist_sq (sample_loc [-3/5] 1 [4] p)
            (decode 1 [4] (({ sample := 1, voxel := 1, distance := 4/25 } : Entry).voxel - 1)) ∧
      ∀ d, d < 1 → (sample_loc [-3/5] 1 [4] p).getD d 0
        = coord [-3/5] 1 p d * ((([4] : List Nat).getD d 0 : ℕ) : ℚ)
          + ((⌈(((([4] : List Nat).getD d 0 : ℕ)) : ℚ) / 2⌉ : ℤ) : ℚ) :=
  have hd : ∀ j, j < 1 → 1 ≤ [4].getD j 0 := by
    intro j hj
    have : j = 0 := by omega
    subst this
    decide
  have hc := C5_distance_to_unclamped_location 20 [-3/5] 2 1 1 [4]
    (by decide) (by decide) (by norm_num) hd (by decide)
  ⟨by decide!,
    hc.2 (by decide) (by decide)
      (by
        intro j hj
        have : j = 0 := by omega
        subst this
        decide)
      (by
        intro p hp j hj
        have h1 : p = 0 := by omega
        have h2 : j = 0 := by omega
        subst h1 h2
        decide!),
    hc.1 [{ sample := 1, voxel := 1, distance := 4/25 }] (by decide!)
      { sample := 1, voxel := 1, distance := 4/25 } (by simp)⟩

/-- C7 (the claim as stated fails): for grid `[8]`, one sample at `3/8` and
width 2, the two written triples store the voxel indices 7 and 8; decoded with
the stride and the shape, the stored indices give the coordinates `[7]` and then
`[0]`, and `[7]` does not precede `[0]`. -/
theorem C7_stored_indices_decode_out_of_order :
    sparse_gridding_distance 20 [3/8] 2 1 1 [8]
      = some [{ sample := 1, voxel := 7, distance := 1 },
              { sample := 1, voxel := 8, distance := 0 }] ∧
    decode 1 [8] ({ sample := 1, voxel := 7, distance := 1 } : Entry).voxel = [7] ∧
    decode 1 [8] ({ sample := 1, voxel := 8, distance := 0 } : Entry).voxel = [0] ∧
    ¬ precedes [7] [0] := by
  refine ⟨by decide!, by decide!, by decide!, ?_⟩
  rintro ⟨j, hj, _⟩
  cases j with
  | zero => simp at hj
  | succ j => simp at hj

/-- C7 (amended): for every input (with `ndims >= 1`), the output of a call that
returns is the concatenation over the samples `p = 0 .. npts-1`, in increasing
order, of the triples written for sample `p`; the triples of one sample are
those of the coordinates `emitted_tuples`, in that order, and that list is in
the order `precedes` (dimension `ndims-1` slowest, dimension 0 fastest, each
ascending). Each triple stores the sample index `p + 1` (modulo `2^32`). On a
valid grid the coordinate of a triple is the decoding of its zero-based voxel
index `voxel - 1` (the stored index is one-based), so that for two triples of
the same sample the coordinate decoded from `voxel - 1` of the earlier one
precedes that of the later one when compared from dimension `ndims-1` down to
dimension 0, and the stored sample indices are non-decreasing. The call does
return on a valid grid when no `floor(voxel_loc + halfwidth)` is negative and
the fuel exceeds `npts` and every grid dimension. -/
theorem C7_output_order (fuel : Nat) (coords : List ℚ) (w : ℚ)
    (npts ndims : Nat) (dims : List Nat)
    (hn : 1 ≤ ndims) (hn2 : ndims < 4294967296) :
    (∀ out, sparse_gridding_distance fuel coords w npts ndims dims = some out →
      out = (List.range npts).flatMap (fun p =>
        (emitted_tuples coords w ndims dims p).map
          (entry_of (sample_loc coords ndims dims p) (idx_convert ndims dims) ndims p))) ∧
    (∀ p, (emitted_tuples coords w ndims dims p).Pairwise precedes) ∧
    (∀ p v, v ∈ emitted_tuples coords w ndims dims p → v.length = ndims ∧
      (entry_of (sample_loc coords ndims dims p) (idx_convert ndims dims) ndims p v).sample
        = (p + 1) % 4294967296) ∧
    (0 ≤ w → (∀ j, j < ndims → 1 ≤ dims.getD j 0) → grid_size ndims dims < 4294967296 →
      (∀ p v, v ∈ emitted_tuples coords w ndims dims p →
        decode ndims dims
          ((entry_of (sample_loc coords ndims dims p) (idx_convert ndims dims) ndims p v).voxel
            - 1) = v) ∧
      (∀ out, sparse_gridding_distance fuel coords w npts ndims dims = some out →
        out.Pairwise (fun a b => a.sample ≤ b.sample ∧
          (a.sample = b.sample →
            precedes (decode ndims dims (a.voxel - 1)) (decode ndims dims (b.voxel - 1)))))) ∧
    (npts < 4294967296 → npts < fuel →
      (∀ j, j < ndims → 1 ≤ dims.getD j 0 ∧ dims.getD j 0 < 4294967296 ∧
        dims.getD j 0 < fuel) →
      (∀ p, p < npts → ∀ j, j < ndims →
        0 ≤ ⌊(sample_loc coords ndims dims p).getD j 0 + w * (1 / 2)⌋) →
      ∃ out, sparse_gridding_distance fuel coords w npts ndims dims = some out) := by
  have hpre : ∀ p, (emitted_tuples coords w ndims dims p).Pairwise precedes := by
    intro p
    unfold emitted_tuples
    exact (pairwise_nest_tuples _ _ (fun j _ => pairwise_loopRange _ _)).filter _
  have hdec : 0 ≤ w → (∀ j, j < ndims → 1 ≤ dims.getD j 0) →
      grid_size ndims dims < 4294967296 →
      ∀ p v, v ∈ emitted_tuples coords w ndims dims p →
        decode ndims dims
          ((entry_of (sample_loc coords ndims dims p) (idx_convert ndims dims) ndims p v).voxel
            - 1) = v := by
    intro hw hd hg p v hv
    obtain ⟨hl, hin, _⟩ := emitted_in_grid coords w ndims dims p hn hw
      (fun j hj => ⟨hd j hj, dims_lt ndims dims hd hg j hj⟩) v hv
    have hlt := coord_sum_lt ndims dims v (idx_convert ndims dims)
      (idx_convert_getD ndims dims hd hg) hin ndims (le_refl _)
    rw [stride_eq_grid_size] at hlt
    simp only [entry_of, linear_index_eq]
    rw [Nat.mod_eq_of_lt (by omega), Nat.add_sub_cancel]
    exact decode_coord_sum ndims dims v hd hg hl hin
  refine ⟨fun out h => sparse_gridding_distance_emitted fuel coords w npts ndims dims out hn hn2 h,
    hpre, fun p v hv => ?_, fun hw hd hg => ⟨hdec hw hd hg, fun out h => ?_⟩,
    fun hp hf hd hr => ?_⟩
  · unfold emitted_tuples at hv
    rw [List.mem_filter] at hv
    have := length_of_mem_nest_tuples _ _ v hv.1
    exact ⟨by omega, rfl⟩
  · have hnp := sparse_gridding_distance_npts fuel coords w npts ndims dims out h
    rw [sparse_gridding_distance_emitted fuel coords w npts ndims dims out hn hn2 h,
      List.pairwise_flatMap]
    constructor
    · intro p _
      rw [List.pairwise_map]
      refine List.Pairwise.imp_of_mem ?_ (hpre p)
      intro u v hu hv huv
      refine ⟨le_refl _, fun _ => ?_⟩
      rw [hdec hw hd hg p u hu, hdec hw hd hg p v hv]
      exact huv
    · refine List.Pairwise.imp_of_mem ?_ (List.pairwise_lt_range npts)
      intro p1 p2 hp1 hp2 hlt x hx y hy
      rw [List.mem_range] at hp1 hp2
      rw [List.mem_map] at hx hy
      obtain ⟨u, _, rfl⟩ := hx
      obtain ⟨v, _, rfl⟩ := hy
      simp only [entry_of]
      rw [Nat.mod_eq_of_lt (by omega), Nat.mod_eq_of_lt (by omega)]
      exact ⟨by omega, fun he => by omega⟩
  · exact sparse_gridding_distance_returns fuel coords w npts ndims dims hn hn2 hp hf hd hr

/-- C7 (witness): grid `[8, 4]`, width 2, two samples at `(0, 0)` and
`(1/4, -1/4)`: the output of the call, the coordinates of the triples of the two
samples, their order, and the order of the coordinates decoded from `voxel - 1`
along the output. -/
theorem C7_output_order_witness :
    sparse_gridding_distance 20 [0, 0, 1/4, -1/4] 2 2 2 [8, 4]
      = some [{ sample := 1, voxel := 13, distance := 1 },
      { sample := 1, voxel := 20, distance := 1 }, { sample := 1, voxel := 21, distance := 0 },
      { sample := 1, voxel := 22, distance := 1 }, { sample := 1, voxel := 29, distance := 1 },
      { sample := 2, voxel := 7, distance := 1 }, { sample := 2, voxel := 14, distance := 1 },
      { sample := 2, voxel := 15, distance := 0 }, { sample := 2, voxel := 16, distance := 1 },
      { sample := 2, voxel := 23, distance := 1 }] ∧
    emitted_tuples [0, 0, 1/4, -1/4] 2 2 [8, 4] 0 = [[4, 1], [3, 2], [4, 2], [5, 2], [4, 3]] ∧
    emitted_tuples [0, 0, 1/4, -1/4] 2 2 [8, 4] 1 = [[6, 0], [5, 1], [6, 1], [7, 1], [6, 2]] ∧
    decode 2 [8, 4] (13 - 1) = [4, 1] ∧
    decode 2 [8, 4] (20 - 1) = [3, 2] ∧
    (emitted_tuples [0, 0, 1/4, -1/4] 2 2 [8, 4] 0).Pairwise precedes ∧
    (emitted_tuples [0, 0, 1/4, -1/4] 2 2 [8, 4] 1).Pairwise precedes ∧
    [({ sample := 1, voxel := 13, distance := 1 } : Entry),
      { sample := 1, voxel := 20, distance := 1 }, { sample := 1, voxel := 21, distance := 0 },
      { sample := 1, voxel := 22, distance := 1 }, { sample := 1, voxel := 29, distance := 1 },
      { sample := 2, voxel := 7, distance := 1 }, { sample := 2, voxel := 14, distance := 1 },
      { sample := 2, voxel := 15, distance := 0 }, { sample := 2, voxel := 16, distance := 1 },
      { sample := 2, voxel := 23, distance := 1 }].Pairwise
        (fun a b => a.sample ≤ b.sample ∧
          (a.sample = b.sample →
            precedes (decode 2 [8, 4] (a.voxel - 1)) (decode 2 [8, 4] (b.voxel - 1)))) :=
  have hd : ∀ j, j < 2 → 1 ≤ [8, 4].getD j 0 := by
    intro j hj
    have : j = 0 ∨ j = 1 := by omega
    rcases this with rfl | rfl <;> decide
  have hc := C7_output_order 20 [0, 0, 1/4, -1/4] 2 2 2 [8, 4] (by decide) (by decide)
  ⟨by decide!, by decide!, by decide!, by decide!, by decide!, hc.2.1 0, hc.2.1 1,
    (hc.2.2.2.1 (by norm_num) hd (by decide)).2 _ (by decide!)⟩

/-- C11: for the valid input `ndims = 1`, `output_dims = [8]`, one sample at `0`
and `kernel_width = 2`, `mexFunction` computes `max_n_neighbors = 2` and
allocates `npts * max_n_neighbors = 2` positions for each output array, while
`sparse_gridding_distance` writes three triples: the number of written triples
exceeds the allocated capacity. -/
theorem C11_capacity_undercount :
    max_n_neighbors 1 2 = 2 ∧
    output_capacity 1 1 2 = 2 ∧
    ∃ out, sparse_gridding_distance 20 [0] 2 1 1 [8] = some out ∧
      output_capacity 1 1 2 < out.length := by
  refine ⟨by decide!, by decide!,
    [{ sample := 1, voxel := 4, distance := 1 }, { sample := 1, voxel := 5, distance := 0 },
      { sample := 1, voxel := 6, distance := 1 }], by decide!, by decide!⟩

/-- C15: for the valid input `ndims = 1`, `output_dims = [4]`, one sample at
`-3/5` and `kernel_width = 2`, the location of the sample is `-2/5`, outside
`[0, 3]`, and the call nevertheless writes one triple: voxel 0 (stored one-based
as 1) with squared distance `4/25`. -/
theorem C15_outside_sample_contributes :
    sample_loc [-3/5] 1 [4] 0 = [-2/5] ∧
    (-2/5 : ℚ) < 0 ∧
    sparse_gridding_distance 20 [-3/5] 2 1 1 [4]
      = some [{ sample := 1, voxel := 1, distance := 4/25 }] ∧
    linear_index 1 [0] (idx_convert 1 [4]) + 1 = 1 := by
  refine ⟨by decide!, by norm_num, by decide!, by decide!⟩


theorem output_halfwidth_getD (ndims : Nat) (dims : List Nat) (d : Nat) (hd : d < ndims)
    (hlt : dims.getD d 0 < 4294967296) :
    (((output_halfwidth ndims dims).getD d 0 : ℕ) : ℤ) = ⌈((dims.getD d 0 : ℕ) : ℚ) / 2⌉ := by
  unfold output_halfwidth
  rw [getD_map_range _ _ _ _ hd]
  have e : ((dims.getD d 0 : ℕ) : ℚ) * (1 / 2) = ((dims.getD d 0 : ℕ) : ℚ) / 2 := by ring
  rw [e]
  have h0 : 0 ≤ ⌈((dims.getD d 0 : ℕ) : ℚ) / 2⌉ := by
    apply Int.ceil_nonneg
    positivity
  have h1 : ⌈((dims.getD d 0 : ℕ) : ℚ) / 2⌉ < 4294967296 := by
    have hle : ⌈((dims.getD d 0 : ℕ) : ℚ) / 2⌉ ≤ ((dims.getD d 0 : ℕ) : ℤ) := by
      rw [Int.ceil_le]
      push_cast
      have : (0 : ℚ) ≤ ((dims.getD d 0 : ℕ) : ℚ) := by positivity
      linarith
    omega
  rw [castUInt_intCast _ h0 h1]
  exact Int.toNat_of_nonneg h0

/-- C16: for every grid shape with `ndims >= 1`, every `output_dims[d] >= 1` and
product of the dimensions below `2^32`, the arrays computed once per call
satisfy `output_halfwidth[d] = ceil(output_dims[d]/2)` for every `d`,
`idx_convert[0] = 1`, `idx_convert[d] = idx_convert[d-1] * output_dims[d-1]` for
every `1 <= d < ndims`, and `idx_convert[d]` is the product of
`output_dims[0..d-1]`. -/
theorem C16_grid_precomputation (ndims : Nat) (dims : List Nat)
    (hn : 1 ≤ ndims) (hd : ∀ j, j < ndims → 1 ≤ dims.getD j 0)
    (hg : grid_size ndims dims < 4294967296) :
    (∀ d, d < ndims →
      (((output_halfwidth ndims dims).getD d 0 : ℕ) : ℤ) = ⌈((dims.getD d 0 : ℕ) : ℚ) / 2⌉) ∧
    (idx_convert ndims dims).getD 0 0 = 1 ∧
    (∀ d, 1 ≤ d → d < ndims →
      (idx_convert ndims dims).getD d 0
        = (idx_convert ndims dims).getD (d - 1) 0 * dims.getD (d - 1) 0) ∧
    (∀ d, d < ndims →
      (idx_convert ndims dims).getD d 0
        = ((List.range d).map (fun j => dims.getD j 0)).prod) := by
  refine ⟨fun d hdn => output_halfwidth_getD ndims dims d hdn (dims_lt ndims dims hd hg d hdn),
    ?_, fun d h1 hdn => ?_, fun d hdn => ?_⟩
  · rw [idx_convert_getD ndims dims hd hg 0 (by omega)]
    rfl
  · obtain ⟨k, rfl⟩ : ∃ k, d = k + 1 := ⟨d - 1, by omega⟩
    rw [idx_convert_getD ndims dims hd hg (k + 1) hdn, Nat.add_sub_cancel,
      idx_convert_getD ndims dims hd hg k (by omega)]
    rfl
  · rw [idx_convert_getD ndims dims hd hg d hdn, stride_eq_grid_size]
    rfl

/-- C16 (witness): the grid shape `[8, 4, 3]`. -/
theorem C16_grid_precomputation_witness :
    output_halfwidth 3 [8, 4, 3] = [4, 2, 2] ∧
    idx_convert 3 [8, 4, 3] = [1, 8, 32] ∧
    (∀ d, d < 3 →
      (((output_halfwidth 3 [8, 4, 3]).getD d 0 : ℕ) : ℤ)
        = ⌈((([8, 4, 3] : List Nat).getD d 0 : ℕ) : ℚ) / 2⌉) ∧
    (idx_convert 3 [8, 4, 3]).getD 0 0 = 1 ∧
    (∀ d, 1 ≤ d → d < 3 →
      (idx_convert 3 [8, 4, 3]).getD d 0
        = (idx_convert 3 [8, 4, 3]).getD (d - 1) 0 * [8, 4, 3].getD (d - 1) 0) ∧
    (∀ d, d < 3 →
      (idx_convert 3 [8, 4, 3]).getD d 0
        = ((List.range d).map (fun j => [8, 4, 3].getD j 0)).prod) :=
  ⟨by decide!, by decide!,
    C16_grid_precomputation 3 [8, 4, 3] (by decide)
      (by
        intro j hj
        have : j = 0 ∨ j = 1 ∨ j = 2 := by omega
        rcases this with rfl | rfl | rfl <;> decide)
      (by decide)⟩

/-- C14 (the code at a failing input): grid `[4]`, width 1, one sample at
`-7/10`. The location is `-4/5`, `floor(-4/5 + 1/2) = -1`, and the stored upper
bound `bounds[1]` is `4294967295`, not at most `output_dims[0] - 1 = 3`: the
coordinates `4, 5, ...` that the loop of `grid_point` runs through are outside
the grid. -/
theorem C14_stored_upper_bound_outside_grid :
    sample_loc [-7/10] 1 [4] 0 = [-4/5] ∧
    ⌊(-4/5 : ℚ) + 1 * (1 / 2)⌋ = -1 ∧
    bounds [-7/10] 1 1 [4] 0 = [0, 4294967295] ∧
    ¬ ((bounds [-7/10] 1 1 [4] 0).getD (2 * 0 + 1) 0 ≤ [4].getD 0 0 - 1) ∧
    4 ∈ box_rng (bounds [-7/10] 1 1 [4] 0) 0 := by
  refine ⟨by decide!, by decide!, by decide!, by decide!, ?_⟩
  have hb : bounds [-7/10] 1 1 [4] 0 = [0, 4294967295] := by decide!
  rw [hb, box_rng, mem_loopRange]
  decide

/-- C19 (the code at a failing input): grid `[4]`, width 1, one sample at
`-3/4`. The location is `-1`, `floor(-1 + 1/2) = -1`, the stored upper bound is
`4294967295`, the largest `unsigned int`, so the test `i <= upper` never fails
and the call does not return, whatever the fuel. -/
theorem C19_no_termination_below_grid :
    sample_loc [-3/4] 1 [4] 0 = [-1] ∧
    bounds [-3/4] 1 1 [4] 0 = [0, 4294967295] ∧
    ¬ ∃ fuel out, sparse_gridding_distance fuel [-3/4] 1 1 1 [4] = some out := by
  refine ⟨by decide!, by decide!, ?_⟩
  rintro ⟨fuel, out, h⟩
  unfold sparse_gridding_distance at h
  rw [sample_loop_none_of_first _ 1 fuel [] (by decide)
    (sample_step_diverge fuel _ _ _ _ 0 [] (by decide!))] at h
  simp at h


/-- On a valid grid the exact linear index is strictly increasing along the
order of the visit. -/
theorem coord_sum_lt_of_precedes (n : Nat) (dims u v c : List Nat)
    (hc : ∀ j, j < n → c.getD j 0 = stride dims j)
    (hu : ∀ j, j < n → u.getD j 0 < dims.getD j 0)
    (hlu : u.length = n) (hlv : v.length = n) (hp : precedes u v) :
    coord_sum n u c < coord_sum n v c := by
  obtain ⟨j, hj, hab⟩ := hp
  have hjn : j < n := by
    by_contra hjc
    rw [List.getD_eq_default _ _ (by omega), List.getD_eq_default _ _ (by omega)] at hj
    exact lt_irrefl _ hj
  have hbase : coord_sum (j + 1) u c < coord_sum (j + 1) v c := by
    rw [coord_sum_succ, coord_sum_succ, hc j hjn]
    have h1 := coord_sum_lt n dims u c hc hu j (by omega)
    have h2 : (u.getD j 0 + 1) * stride dims j ≤ v.getD j 0 * stride dims j :=
      Nat.mul_le_mul_right _ (by omega)
    have h3 : (u.getD j 0 + 1) * stride dims j
        = u.getD j 0 * stride dims j + stride dims j := by ring
    omega
  have hstep : ∀ m, j + 1 ≤ m → m ≤ n → coord_sum m u c < coord_sum m v c := by
    intro m
    induction m with
    | zero => intro h _; omega
    | succ m ih =>
      intro h1 h2
      by_cases hm : m = j
      · subst hm; exact hbase
      · have := ih (by omega) (by omega)
        rw [coord_sum_succ, coord_sum_succ, hab m (by omega)]
        omega
  exact hstep n (by omega) (le_refl _)

/-- C18: for every valid input with product of `output_dims` below `2^32`, the
output of a call that returns has non-decreasing stored sample indices, and
between two triples of the same sample the stored voxel index of the earlier one
is strictly smaller; consequently no (sample, voxel) pair appears twice. The
call does return when no `floor(voxel_loc + halfwidth)` is negative and the fuel
exceeds `npts` and every grid dimension. -/
theorem C18_sorted_duplicate_free (fuel : Nat) (coords : List ℚ) (w : ℚ)
    (npts ndims : Nat) (dims : List Nat)
    (hn : 1 ≤ ndims) (hn2 : ndims < 4294967296) (hw : 0 < w)
    (hd : ∀ j, j < ndims → 1 ≤ dims.getD j 0) (hg : grid_size ndims dims < 4294967296) :
    (∀ out, sparse_gridding_distance fuel coords w npts ndims dims = some out →
      out.Pairwise (fun a b => a.sample ≤ b.sample ∧ (a.sample = b.sample → a.voxel < b.voxel)) ∧
      (out.map (fun e => (e.sample, e.voxel))).Nodup) ∧
    (npts < 4294967296 → npts < fuel → (∀ j, j < ndims → dims.getD j 0 < fuel) →
      (∀ p, p < npts → ∀ j, j < ndims →
        0 ≤ ⌊(sample_loc coords ndims dims p).getD j 0 + w * (1 / 2)⌋) →
      ∃ out, sparse_gridding_distance fuel coords w npts ndims dims = some out) := by
  constructor
  · intro out h
    have hpw : out.Pairwise
        (fun a b => a.sample ≤ b.sample ∧ (a.sample = b.sample → a.voxel < b.voxel)) := by
      have hnp := sparse_gridding_distance_npts fuel coords w npts ndims dims out h
      rw [sparse_gridding_distance_emitted fuel coords w npts ndims dims out hn hn2 h,
        List.pairwise_flatMap]
      constructor
      · intro p _
        rw [List.pairwise_map]
        have hpre : (emitted_tuples coords w ndims dims p).Pairwise precedes := by
          unfold emitted_tuples
          exact (pairwise_nest_tuples _ _ (fun j _ => pairwise_loopRange _ _)).filter _
        refine List.Pairwise.imp_of_mem ?_ hpre
        intro u v hu hv huv
        obtain ⟨hlu, hinu, _⟩ := emitted_in_grid coords w ndims dims p hn (le_of_lt hw)
          (fun j hj => ⟨hd j hj, dims_lt ndims dims hd hg j hj⟩) u hu
        obtain ⟨hlv, hinv, _⟩ := emitted_in_grid coords w ndims dims p hn (le_of_lt hw)
          (fun j hj => ⟨hd j hj, dims_lt ndims dims hd hg j hj⟩) v hv
        have hc := idx_convert_getD ndims dims hd hg
        have h1 := coord_sum_lt ndims dims u _ hc hinu ndims (le_refl _)
        have h2 := coord_sum_lt ndims dims v _ hc hinv ndims (le_refl _)
        rw [stride_eq_grid_size] at h1 h2
        have h3 := coord_sum_lt_of_precedes ndims dims u v _ hc hinu hlu hlv huv
        refine ⟨le_refl _, fun _ => ?_⟩
        simp only [entry_of, linear_index_eq]
        rw [Nat.mod_eq_of_lt (by omega), Nat.mod_eq_of_lt (by omega)]
        omega
      · refine List.Pairwise.imp_of_mem ?_ (List.pairwise_lt_range npts)
        intro p1 p2 hp1 hp2 hlt x hx y hy
        rw [List.mem_range] at hp1 hp2
        rw [List.mem_map] at hx hy
        obtain ⟨u, _, rfl⟩ := hx
        obtain ⟨v, _, rfl⟩ := hy
        simp only [entry_of]
        rw [Nat.mod_eq_of_lt (by omega), Nat.mod_eq_of_lt (by omega)]
        exact ⟨by omega, fun he => by omega⟩
    refine ⟨hpw, ?_⟩
    unfold List.Nodup
    rw [List.pairwise_map]
    refine hpw.imp ?_
    intro a b hab he
    simp only [Prod.mk.injEq] at he
    have := hab.2 he.1
    omega
  · intro hp hf hdf hr
    exact sparse_gridding_distance_returns fuel coords w npts ndims dims hn hn2 hp hf
      (fun j hj => ⟨hd j hj, dims_lt ndims dims hd hg j hj, hdf j hj⟩) hr

/-- C18 (witness): grid `[8, 4]`, width 2, two samples at `(0, 0)` and
`(1/4, -1/4)`: the call returns and its ten triples are sorted by sample and
then by voxel, without duplicate. -/
theorem C18_sorted_duplicate_free_witness :
    (∃ out, sparse_gridding_distance 20 [0, 0, 1/4, -1/4] 2 2 2 [8, 4] = some out) ∧
    [({ sample := 1, voxel := 13, distance := 1 } : Entry),
      { sample := 1, voxel := 20, distance := 1 }, { sample := 1, voxel := 21, distance := 0 },
      { sample := 1, voxel := 22, distance := 1 }, { sample := 1, voxel := 29, distance := 1 },
      { sample := 2, voxel := 7, distance := 1 }, { sample := 2, voxel := 14, distance := 1 },
      { sample := 2, voxel := 15, distance := 0 }, { sample := 2, voxel := 16, distance := 1 },
      { sample := 2, voxel := 23, distance := 1 }].Pairwise
        (fun a b => a.sample ≤ b.sample ∧ (a.sample = b.sample → a.voxel < b.voxel)) :=
  have hd : ∀ j, j < 2 → 1 ≤ [8, 4].getD j 0 := by
    intro j hj
    have : j = 0 ∨ j = 1 := by omega
    rcases this with rfl | rfl <;> decide
  have hc := C18_sorted_duplicate_free 20 [0, 0, 1/4, -1/4] 2 2 2 [8, 4]
    (by decide) (by decide) (by norm_num) hd (by decide)
  ⟨hc.2 (by decide) (by decide)
      (by
        intro j hj
        have : j = 0 ∨ j = 1 := by omega
        rcases this with rfl | rfl <;> decide)
      (by
        intro p hp j hj
        have h1 : p = 0 ∨ p = 1 := by omega
        have h2 : j = 0 ∨ j = 1 := by omega
        rcases h1 with rfl | rfl <;> rcases h2 with rfl | rfl <;> decide!),
    (hc.1 _ (by decide!)).1⟩


/-! ## Early pruning -/

/-- Whenever the pruned enumerator returns, it has appended the triples of the
loop nest over the box of `bounds`. -/
theorem grid_point_pruned_some (fuel : Nat) (loc : List ℚ) (conv : List Nat) (hsq : ℚ)
    (ndims : Nat) (bnd : List Nat) (p : Nat) :
    ∀ (d : Nat) (k : ℚ) (s s1 : GridState), d < s.seed_pt.length →
      (∀ j, j ≤ d → bnd.getD (2 * j) 0 < 4294967296) →
      grid_point_pruned fuel loc conv hsq ndims bnd p d k s = some s1 →
      (s1.seed_pt.length = s.seed_pt.length ∧
        s1.seed_pt.drop (d + 1) = s.seed_pt.drop (d + 1)) ∧
      s1.entries = s.entries
        ++ nest_entries (box_rng bnd) loc conv hsq ndims p d k (s.seed_pt.drop (d + 1)) := by
  intro d
  induction d with
  | zero =>
    intro k s s1 hlen hlo h
    unfold grid_point_pruned at h
    have h1 := forLoop_some _ _ fuel _ s s1 (hlo 0 (le_refl _)) h
    have := foldlM_spec GridState.entries
      (fun t => t.seed_pt.length = s.seed_pt.length ∧ t.seed_pt.drop (0 + 1) = s.seed_pt.drop (0 + 1))
      (fun i => grid_leaf conv hsq ndims p (new_kern_dist_sq loc 0 i k)
        (i :: s.seed_pt.drop (0 + 1)) [])
      _ _ ?_ s s1 ⟨rfl, rfl⟩ h1
    · simpa [nest_entries, box_rng] using this
    · intro i _ t t1 ⟨ht1, ht2⟩ hb
      simp only [Option.some.injEq] at hb
      subst hb
      have ht0 : 0 < t.seed_pt.length := by omega
      refine ⟨⟨by simp [ht1], ?_⟩, ?_⟩
      · simp only [List.set_set]
        rw [drop_set_above, ht2]
      · simp only
        rw [grid_leaf_append, set_zero_eq_cons _ _ ht0, ht2]
  | succ d ih =>
    intro k s s1 hlen hlo h
    unfold grid_point_pruned at h
    have h1 := forLoop_some _ _ fuel _ s s1 (hlo (d + 1) (le_refl _)) h
    have := foldlM_spec GridState.entries
      (fun t => t.seed_pt.length = s.seed_pt.length
        ∧ t.seed_pt.drop (d + 1 + 1) = s.seed_pt.drop (d + 1 + 1))
      (fun i => nest_entries (box_rng bnd) loc conv hsq ndims p d
        (new_kern_dist_sq loc (d + 1) i k) (i :: s.seed_pt.drop (d + 1 + 1)))
      _ _ ?_ s s1 ⟨rfl, rfl⟩ h1
    · simpa [nest_entries, box_rng] using this
    · intro i _ t t1 ⟨ht1, ht2⟩ hb
      simp only at hb
      by_cases hle : new_kern_dist_sq loc (d + 1) i k ≤ hsq
      · rw [if_pos hle] at hb
        simp only [Option.map_eq_some'] at hb
        obtain ⟨t2, hg, rfl⟩ := hb
        have hd1 : d + 1 < t.seed_pt.length := by omega
        obtain ⟨⟨hl2, hd2⟩, he2⟩ := ih _ _ t2 (by simp; omega)
          (fun j hj => hlo j (by omega)) hg
        simp only [List.length_set] at hl2
        simp only at hd2 he2
        rw [drop_set_self _ _ _ hd1, ht2] at hd2 he2
        refine ⟨⟨by simp [hl2, ht1], ?_⟩, he2⟩
        simp only
        rw [drop_set_above]
        have := congrArg (List.drop 1) hd2
        simpa using this
      · rw [if_neg hle] at hb
        simp only [Option.some.injEq] at hb
        subst hb
        refine ⟨⟨by simp [ht1], ?_⟩, ?_⟩
        · simp only [List.set_set]
          rw [drop_set_above, ht2]
        · simp only
          rw [nest_entries_nil_of_gt _ _ _ _ _ _ _ _ _ (not_le.mp hle), List.append_nil]

/-- With every upper bound below the largest `unsigned int` and enough fuel,
the pruned enumerator returns. -/
theorem grid_point_pruned_total (fuel : Nat) (loc : List ℚ) (conv : List Nat) (hsq : ℚ)
    (ndims : Nat) (bnd : List Nat) (p : Nat) :
    ∀ (d : Nat), (∀ j, j ≤ d → bnd.getD (2 * j + 1) 0 < 4294967295 ∧
        bnd.getD (2 * j + 1) 0 + 1 - bnd.getD (2 * j) 0 < fuel) →
      ∀ (k : ℚ) (s : GridState),
        ∃ s1, grid_point_pruned fuel loc conv hsq ndims bnd p d k s = some s1 := by
  intro d
  induction d with
  | zero =>
    intro hb k s
    unfold grid_point_pruned
    rw [forLoop_total _ _ (hb 0 (le_refl _)).1 fuel _ s (hb 0 (le_refl _)).2]
    exact foldlM_total _ _ (fun i _ t => ⟨_, rfl⟩) s
  | succ d ih =>
    intro hb k s
    unfold grid_point_pruned
    rw [forLoop_total _ _ (hb (d + 1) (le_refl _)).1 fuel _ s (hb (d + 1) (le_refl _)).2]
    refine foldlM_total _ _ (fun i _ t => ?_) s
    simp only
    by_cases hle : new_kern_dist_sq loc (d + 1) i k ≤ hsq
    · rw [if_pos hle]
      obtain ⟨t1, ht1⟩ := ih (fun j hj => hb j (by omega))
        (new_kern_dist_sq loc (d + 1) i k)
        { seed_pt := t.seed_pt.set (d + 1) i, entries := t.entries }
      exact ⟨_, by simp only [ht1, Option.map_some']; rfl⟩
    · rw [if_neg hle]
      exact ⟨_, rfl⟩

/-- When the loop of dimension `d + 1` is entered and the upper bound of
dimension `d` is the largest `unsigned int`, `grid_point` never returns. -/
theorem grid_point_diverge_inner (fuel : Nat) (loc : List ℚ) (conv : List Nat) (hsq : ℚ)
    (ndims : Nat) (bnd : List Nat) (p d : Nat) (k : ℚ) (s : GridState)
    (he : bnd.getD (2 * (d + 1)) 0 ≤ bnd.getD (2 * (d + 1) + 1) 0)
    (hu : 4294967295 ≤ bnd.getD (2 * d + 1) 0) (hl : bnd.getD (2 * d) 0 < 4294967296) :
    grid_point fuel loc conv hsq ndims bnd p (d + 1) k s = none := by
  unfold grid_point
  cases fuel with
  | zero => rfl
  | succ f =>
    have hc : decide (bnd.getD (2 * (d + 1)) 0 ≤ bnd.getD (2 * (d + 1) + 1) 0) = true :=
      decide_eq_true he
    simp only [forLoop, hc, if_true]
    rw [grid_point_diverge (f + 1) loc conv hsq ndims bnd p d _ _ hu hl]
    rfl

/-- C13 (the claim as stated fails): in two dimensions with
`bounds = [0, 4294967295, 0, 0]`, location `[0, 5]` and squared half-width 1, the
pruned variant skips the inner loop (the partial sum is 25) and returns without
writing, while the unpruned `grid_point` enters the inner loop, whose test
`i <= 4294967295` is always true, and never returns. -/
theorem C13_pruned_returns_unpruned_does_not :
    grid_point_pruned 5 [0, 5] [1, 1] 1 2 [0, 4294967295, 0, 0] 0 1 0
        { seed_pt := [0, 0], entries := [] }
      = some { seed_pt := [0, 0], entries := [] } ∧
    ¬ ∃ fuel s1, grid_point fuel [0, 5] [1, 1] 1 2 [0, 4294967295, 0, 0] 0 1 0
        { seed_pt := [0, 0], entries := [] } = some s1 := by
  refine ⟨by decide!, ?_⟩
  rintro ⟨fuel, s1, h⟩
  rw [grid_point_diverge_inner fuel _ _ _ _ _ _ 0 _ _ (by decide) (by decide) (by decide)] at h
  simp at h

/-- C13 (amended): for every bounds array of `unsigned int` values whose upper
bounds are below `4294967295`, every sample location and every squared
half-width, the unpruned `grid_point` and the variant with early pruning, called
with `cur_dim = ndims-1` and `kern_dist_sq = 0` on the same state, both return
(given enough fuel) and have written exactly the same sequence of triples (same
order, same sample index, voxel index and distance), hence the same final
counter. -/
theorem C13_pruning_equivalent (fuel : Nat) (loc : List ℚ) (conv : List Nat) (hsq : ℚ)
    (ndims : Nat) (bnd : List Nat) (p : Nat) (seed : List Nat) (es : List Entry)
    (hn : 1 ≤ ndims) (hs : seed.length = ndims)
    (hb : ∀ j, j < ndims → bnd.getD (2 * j) 0 < 4294967296 ∧
      bnd.getD (2 * j + 1) 0 < 4294967295 ∧
      bnd.getD (2 * j + 1) 0 + 1 - bnd.getD (2 * j) 0 < fuel) :
    ∃ s1 s2,
      grid_point fuel loc conv hsq ndims bnd p (ndims - 1) 0
        { seed_pt := seed, entries := es } = some s1 ∧
      grid_point_pruned fuel loc conv hsq ndims bnd p (ndims - 1) 0
        { seed_pt := seed, entries := es } = some s2 ∧
      s2.entries = s1.entries ∧ s2.entries.length = s1.entries.length := by
  obtain ⟨s1, h1⟩ := grid_point_total fuel loc conv hsq ndims bnd p (ndims - 1)
    (fun j hj => ⟨(hb j (by omega)).2.1, (hb j (by omega)).2.2⟩) 0
    { seed_pt := seed, entries := es }
  obtain ⟨s2, h2⟩ := grid_point_pruned_total fuel loc conv hsq ndims bnd p (ndims - 1)
    (fun j hj => ⟨(hb j (by omega)).2.1, (hb j (by omega)).2.2⟩) 0
    { seed_pt := seed, entries := es }
  have e1 := (grid_point_some fuel loc conv hsq ndims bnd p (ndims - 1) 0 _ s1
    (by simp only [hs]; omega) (fun j hj => (hb j (by omega)).1) h1).2
  have e2 := (grid_point_pruned_some fuel loc conv hsq ndims bnd p (ndims - 1) 0 _ s2
    (by simp only [hs]; omega) (fun j hj => (hb j (by omega)).1) h2).2
  have he : s2.entries = s1.entries := by rw [e1, e2]
  exact ⟨s1, s2, h1, h2, he, by rw [he]⟩

/-- C13 (witness): the 2-D box `[1,3] x [0,4]` with location `(1, 1)` and
squared half-width 1. At the rows 3 and 4 of dimension 1 the partial sums are 4
and 9, above 1, so the pruned variant skips the recursive call there; both
variants return with the same four triples. -/
theorem C13_pruning_equivalent_witness :
    ¬ (new_kern_dist_sq [1, 1] 1 3 0 ≤ 1) ∧
    ¬ (new_kern_dist_sq [1, 1] 1 4 0 ≤ 1) ∧
    grid_point_pruned 6 [1, 1] [1, 4] 1 2 [1, 3, 0, 4] 0 1 0
        { seed_pt := [1, 0], entries := [] }
      = some { seed_pt := [1, 0],
               entries := [{ sample := 1, voxel := 2, distance := 1 },
                           { sample := 1, voxel := 6, distance := 0 },
                           { sample := 1, voxel := 7, distance := 1 },
                           { sample := 1, voxel := 10, distance := 1 }] } ∧
    ∃ s1 s2,
      grid_point 6 [1, 1] [1, 4] 1 2 [1, 3, 0, 4] 0 (2 - 1) 0
        { seed_pt := [1, 0], entries := [] } = some s1 ∧
      grid_point_pruned 6 [1, 1] [1, 4] 1 2 [1, 3, 0, 4] 0 (2 - 1) 0
        { seed_pt := [1, 0], entries := [] } = some s2 ∧
      s2.entries = s1.entries ∧ s2.entries.length = s1.entries.length :=
  ⟨by decide!, by decide!, by decide!,
    C13_pruning_equivalent 6 [1, 1] [1, 4] 1 2 [1, 3, 0, 4] 0 [1, 0] [] (by decide) rfl
      (by
        intro j hj
        have : j = 0 ∨ j = 1 := by omega
        rcases this with rfl | rfl <;> decide)⟩

/-! ## Two runs that differ in the sample index and the triples already written -/

theorem forLoop_rel {σ τ : Type} (R : σ → τ → Prop) (cond : Nat → Bool)
    (body1 : Nat → σ → Option σ) (body2 : Nat → τ → Option τ)
    (hbody : ∀ i s t, R s t → (body1 i s = none ∧ body2 i t = none) ∨
      ∃ s1 t1, body1 i s = some s1 ∧ body2 i t = some t1 ∧ R s1 t1) :
    ∀ (fuel i : Nat) (s : σ) (t : τ), R s t →
      (forLoop cond body1 fuel i s = none ∧ forLoop cond body2 fuel i t = none) ∨
      ∃ s1 t1, forLoop cond body1 fuel i s = some s1 ∧
        forLoop cond body2 fuel i t = some t1 ∧ R s1 t1 := by
  intro fuel
  induction fuel with
  | zero => intro i s t _; exact Or.inl ⟨rfl, rfl⟩
  | succ fuel ih =>
    intro i s t hR
    simp only [forLoop]
    by_cases hc : cond i = true
    · rw [if_pos hc, if_pos hc]
      rcases hbody i s t hR with ⟨h1, h2⟩ | ⟨s1, t1, h1, h2, hR1⟩
      · rw [h1, h2]
        exact Or.inl ⟨rfl, rfl⟩
      · rw [h1, h2]
        exact ih _ s1 t1 hR1
    · rw [if_neg hc, if_neg hc]
      exact Or.inr ⟨s, t, rfl, rfl, hR⟩

theorem foldlM_rel {σ τ : Type} (R : σ → τ → Prop) (f : Nat → Nat)
    (body1 : Nat → σ → Option σ) (body2 : Nat → τ → Option τ) (l : List Nat)
    (hbody : ∀ i ∈ l, ∀ s t, R s t → (body1 i s = none ∧ body2 (f i) t = none) ∨
      ∃ s1 t1, body1 i s = some s1 ∧ body2 (f i) t = some t1 ∧ R s1 t1) :
    ∀ (s : σ) (t : τ), R s t →
      (l.foldlM (fun s i => body1 i s) s = none ∧
        (l.map f).foldlM (fun t i => body2 i t) t = none) ∨
      ∃ s1 t1, l.foldlM (fun s i => body1 i s) s = some s1 ∧
        (l.map f).foldlM (fun t i => body2 i t) t = some t1 ∧ R s1 t1 := by
  induction l with
  | nil => intro s t hR; exact Or.inr ⟨s, t, rfl, rfl, hR⟩
  | cons a l ih =>
    intro s t hR
    rw [List.map_cons, List.foldlM_cons, List.foldlM_cons]
    rcases hbody a (List.mem_cons_self _ _) s t hR with ⟨h1, h2⟩ | ⟨s1, t1, h1, h2, hR1⟩
    · rw [h1, h2]
      exact Or.inl ⟨rfl, rfl⟩
    · rw [h1, h2]
      exact ih (fun i hi => hbody i (List.mem_cons_of_mem _ hi)) s1 t1 hR1

/-- Two calls of `grid_point` that differ only in the sample index (`p` and
`n + p`) and in the triples already written either both fail to return or both
return, with the same `seed_pt` and the same new triples up to the shift of the
sample index by `n`. -/
theorem grid_point_rel (fuel : Nat) (loc : List ℚ) (conv : List Nat) (hsq : ℚ)
    (ndims : Nat) (bnd : List Nat) (p n : Nat) (pre : List Entry)
    (hp : n + p + 1 < 4294967296) :
    ∀ (d : Nat) (k : ℚ) (s t : GridState),
      (t.seed_pt = s.seed_pt ∧ t.entries = pre ++ s.entries.map (shift_sample n)) →
      (grid_point fuel loc conv hsq ndims bnd p d k s = none ∧
        grid_point fuel loc conv hsq ndims bnd (n + p) d k t = none) ∨
      ∃ s1 t1, grid_point fuel loc conv hsq ndims bnd p d k s = some s1 ∧
        grid_point fuel loc conv hsq ndims bnd (n + p) d k t = some t1 ∧
        (t1.seed_pt = s1.seed_pt ∧ t1.entries = pre ++ s1.entries.map (shift_sample n)) := by
  intro d
  induction d with
  | zero =>
    intro k s t hR
    unfold grid_point
    apply forLoop_rel
      (fun (s t : GridState) =>
        t.seed_pt = s.seed_pt ∧ t.entries = pre ++ s.entries.map (shift_sample n))
    · intro i s0 t0 ⟨h1, h2⟩
      refine Or.inr ⟨_, _, rfl, rfl, ?_, ?_⟩
      · simp only [h1]
      · simp only [grid_leaf, h1, h2]
        split
        · simp only [List.map_append, List.map_cons, List.map_nil, List.append_assoc,
            shift_sample]
          have e1 : (p + 1) % 4294967296 = p + 1 := Nat.mod_eq_of_lt (by omega)
          have e2 : (n + p + 1) % 4294967296 = n + p + 1 := Nat.mod_eq_of_lt (by omega)
          rw [e1, e2]
          have e3 : p + 1 + n = n + p + 1 := by omega
          rw [e3]
        · rfl
    · exact hR
  | succ d ih =>
    intro k s t hR
    unfold grid_point
    apply forLoop_rel
      (fun (s t : GridState) =>
        t.seed_pt = s.seed_pt ∧ t.entries = pre ++ s.entries.map (shift_sample n))
    · intro i s0 t0 ⟨h1, h2⟩
      simp only
      rcases ih (new_kern_dist_sq loc (d + 1) i k)
        { seed_pt := s0.seed_pt.set (d + 1) i, entries := s0.entries }
        { seed_pt := t0.seed_pt.set (d + 1) i, entries := t0.entries }
        ⟨by simp only [h1], h2⟩ with ⟨g1, g2⟩ | ⟨s1, t1, g1, g2, r1, r2⟩
      · rw [g1, g2]
        exact Or.inl ⟨rfl, rfl⟩
      · rw [g1, g2]
        refine Or.inr ⟨_, _, rfl, rfl, ?_, r2⟩
        simp only [r1]
    · exact hR


theorem coord_append_left (A B : List ℚ) (ndims p dim : Nat)
    (hi : ndims * p + dim < A.length) (hlt : A.length ≤ 4294967296) :
    coord (A ++ B) ndims p dim = coord A ndims p dim := by
  unfold coord
  rw [Nat.mod_eq_of_lt (by omega), List.getD_append _ _ _ _ hi]

theorem coord_append_right (A B : List ℚ) (ndims nA q dim : Nat)
    (hA : A.length = ndims * nA) (hlt : ndims * (nA + q) + dim < 4294967296) :
    coord (A ++ B) ndims (nA + q) dim = coord B ndims q dim := by
  unfold coord
  have e : ndims * (nA + q) + dim = A.length + (ndims * q + dim) := by
    rw [hA, Nat.mul_add]
    omega
  rw [Nat.mod_eq_of_lt hlt, e, List.getD_append_right _ _ _ _ (by omega),
    Nat.add_sub_cancel_left, Nat.mod_eq_of_lt (by omega)]

theorem sample_loc_append_left (A B : List ℚ) (ndims nA p : Nat) (dims : List Nat)
    (hA : A.length = ndims * nA) (hp : p < nA) (hlt : ndims * nA ≤ 4294967296) :
    sample_loc (A ++ B) ndims dims p = sample_loc A ndims dims p := by
  unfold sample_loc
  apply List.map_congr_left
  intro dim hdim
  rw [List.mem_range] at hdim
  have h1 : ndims * (p + 1) ≤ ndims * nA := Nat.mul_le_mul_left ndims hp
  rw [Nat.mul_succ] at h1
  rw [coord_append_left A B ndims p dim (by omega) (by omega)]

theorem sample_loc_append_right (A B : List ℚ) (ndims nA q : Nat) (dims : List Nat)
    (hA : A.length = ndims * nA) (hlt : ndims * (nA + q + 1) ≤ 4294967296) :
    sample_loc (A ++ B) ndims dims (nA + q) = sample_loc B ndims dims q := by
  unfold sample_loc
  apply List.map_congr_left
  intro dim hdim
  rw [List.mem_range] at hdim
  have h1 : ndims * (nA + q + 1) = ndims * (nA + q) + ndims := Nat.mul_succ _ _
  rw [coord_append_right A B ndims nA q dim hA (by omega)]

theorem sample_step_append_left (fuel : Nat) (A B : List ℚ) (w : ℚ) (ndims nA p : Nat)
    (dims : List Nat) (es : List Entry)
    (hA : A.length = ndims * nA) (hp : p < nA) (hlt : ndims * nA ≤ 4294967296) :
    sample_step fuel (A ++ B) w ndims dims p es = sample_step fuel A w ndims dims p es := by
  unfold sample_step bounds
  rw [sample_loc_append_left A B ndims nA p dims hA hp hlt]

theorem sample_step_append_right (fuel : Nat) (A B : List ℚ) (w : ℚ) (ndims nA q : Nat)
    (dims : List Nat) (pre es : List Entry)
    (hA : A.length = ndims * nA) (hlt : ndims * (nA + q + 1) ≤ 4294967296)
    (hq : nA + q + 1 < 4294967296) :
    (sample_step fuel B w ndims dims q es = none ∧
      sample_step fuel (A ++ B) w ndims dims (nA + q) (pre ++ es.map (shift_sample nA)) = none) ∨
    ∃ x y, sample_step fuel B w ndims dims q es = some x ∧
      sample_step fuel (A ++ B) w ndims dims (nA + q) (pre ++ es.map (shift_sample nA)) = some y ∧
      y = pre ++ x.map (shift_sample nA) := by
  unfold sample_step bounds
  rw [sample_loc_append_right A B ndims nA q dims hA hlt]
  simp only
  rcases grid_point_rel fuel (sample_loc B ndims dims q) (idx_convert ndims dims)
    (w * (1 / 2) * (w * (1 / 2))) ndims
    ((List.range ndims).flatMap (fun dim =>
      [lower_bound ((sample_loc B ndims dims q).getD dim 0) (w * (1 / 2)),
       upper_bound ((sample_loc B ndims dims q).getD dim 0) (w * (1 / 2)) (dims.getD dim 0)]))
    q nA pre hq ((ndims + 4294967295) % 4294967296) 0
    { seed_pt := seed_init ndims ((List.range ndims).flatMap (fun dim =>
        [lower_bound ((sample_loc B ndims dims q).getD dim 0) (w * (1 / 2)),
         upper_bound ((sample_loc B ndims dims q).getD dim 0) (w * (1 / 2))
          (dims.getD dim 0)])),
      entries := es }
    { seed_pt := seed_init ndims ((List.range ndims).flatMap (fun dim =>
        [lower_bound ((sample_loc B ndims dims q).getD dim 0) (w * (1 / 2)),
         upper_bound ((sample_loc B ndims dims q).getD dim 0) (w * (1 / 2))
          (dims.getD dim 0)])),
      entries := pre ++ es.map (shift_sample nA) }
    ⟨rfl, rfl⟩ with ⟨g1, g2⟩ | ⟨s1, t1, g1, g2, _, r2⟩
  · rw [g1, g2]
    exact Or.inl ⟨rfl, rfl⟩
  · rw [g1, g2]
    exact Or.inr ⟨_, _, rfl, rfl, r2⟩

theorem foldlM_congr {σ : Type} (body1 body2 : Nat → σ → Option σ) (l : List Nat)
    (h : ∀ i ∈ l, ∀ s, body1 i s = body2 i s) (s : σ) :
    l.foldlM (fun s i => body1 i s) s = l.foldlM (fun s i => body2 i s) s := by
  induction l generalizing s with
  | nil => rfl
  | cons a l ih =>
    rw [List.foldlM_cons, List.foldlM_cons, h a (List.mem_cons_self _ _) s]
    cases body2 a s with
    | none => rfl
    | some s1 => exact ih (fun i hi => h i (List.mem_cons_of_mem _ hi)) s1

/-- C12: for every grid, width and two coordinate lists `A` (of `nA` samples)
and `B` (of `nB` samples) whose sizes fit the `unsigned int` index arithmetic,
the call on the concatenation `A ++ B` behaves as the call on `A` followed by
the call on `B`: it returns exactly when both do, and its output is then the
output on `A` followed by the output on `B` with every stored sample index
shifted by `nA`. Hence the triples of a sample depend only on its own
coordinates, and nothing is merged or removed across samples. -/
theorem C12_concatenation (fuel : Nat) (A B : List ℚ) (w : ℚ) (nA nB ndims : Nat)
    (dims : List Nat)
    (hA : A.length = ndims * nA)
    (hnp : nA + nB < 4294967296) (hsz : ndims * (nA + nB) ≤ 4294967296)
    (hf : nA + nB < fuel) :
    sparse_gridding_distance fuel (A ++ B) w (nA + nB) ndims dims
      = (sparse_gridding_distance fuel A w nA ndims dims).bind (fun oa =>
          (sparse_gridding_distance fuel B w nB ndims dims).map (fun ob =>
            oa ++ ob.map (shift_sample nA))) := by
  have hszA : ndims * nA ≤ 4294967296 :=
    le_trans (Nat.mul_le_mul_left ndims (Nat.le_add_right nA nB)) hsz
  unfold sparse_gridding_distance
  rw [sample_loop_total _ (nA + nB) fuel [] hnp hf,
    sample_loop_total _ nA fuel [] (by omega) (by omega),
    sample_loop_total _ nB fuel [] (by omega) (by omega),
    List.range_add, List.foldlM_append,
    foldlM_congr _ (fun p es => sample_step fuel A w ndims dims p es) (List.range nA)
      (fun p hp es => sample_step_append_left fuel A B w ndims nA p dims es hA
        (List.mem_range.mp hp) hszA) []]
  cases hoa : (List.range nA).foldlM (fun s i => sample_step fuel A w ndims dims i s) [] with
  | none => rfl
  | some oa =>
    simp only [Option.bind_eq_bind, Option.some_bind]
    rcases foldlM_rel (fun (x y : List Entry) => y = oa ++ x.map (shift_sample nA))
      (fun q => nA + q)
      (fun q es => sample_step fuel B w ndims dims q es)
      (fun p es => sample_step fuel (A ++ B) w ndims dims p es) (List.range nB)
      (fun q hq x y hxy => by
        rw [List.mem_range] at hq
        subst hxy
        exact sample_step_append_right fuel A B w ndims nA q dims oa x hA
          (le_trans (Nat.mul_le_mul_left ndims (by omega)) hsz) (by omega))
      [] oa (by simp) with ⟨g1, g2⟩ | ⟨x, y, g1, g2, hxy⟩
    · rw [g1, g2]
      rfl
    · rw [g1, g2, hxy]
      rfl

/-- C12 (witness): grid `[8]`, width 2, `A` = one sample at `0`, `B` = one sample
at `1/8`. The supports share the voxels 4 and 5 (stored as 5 and 6): each sample
has its own triple for them, with its own distance. -/
theorem C12_concatenation_witness :
    sparse_gridding_distance 20 ([0] ++ [1/8]) 2 (1 + 1) 1 [8]
      = some [{ sample := 1, voxel := 4, distance := 1 },
              { sample := 1, voxel := 5, distance := 0 },
              { sample := 1, voxel := 6, distance := 1 },
              { sample := 2, voxel := 5, distance := 1 },
              { sample := 2, voxel := 6, distance := 0 },
              { sample := 2, voxel := 7, distance := 1 }] ∧
    sparse_gridding_distance 20 ([0] ++ [1/8]) 2 (1 + 1) 1 [8]
      = (sparse_gridding_distance 20 [0] 2 1 1 [8]).bind (fun oa =>
          (sparse_gridding_distance 20 [1/8] 2 1 1 [8]).map (fun ob =>
            oa ++ ob.map (shift_sample 1))) :=
  ⟨by decide!,
    C12_concatenation 20 [0] [1/8] 2 1 1 1 [8] rfl (by decide) (by decide) (by decide)⟩


/-! ## Two kernel widths -/

theorem sublist_flatMap {α β : Type} (f g : α → List β) (l : List α)
    (h : ∀ a ∈ l, (f a).Sublist (g a)) : (l.flatMap f).Sublist (l.flatMap g) := by
  induction l with
  | nil => exact List.Sublist.refl _
  | cons a l ih =>
    rw [List.flatMap_cons, List.flatMap_cons]
    exact (h a (List.mem_cons_self _ _)).append (ih (fun b hb => h b (List.mem_cons_of_mem _ hb)))

/-- On a valid grid, whenever the calls with the widths `0 <= w1 <= w2` both
return, the output for `w1` is a sublist of the output for `w2`: every triple
written for `w1` is written for `w2`, with the same distance and in the same
relative order. -/
theorem output_sublist_of_width_le (fuel1 fuel2 : Nat) (coords : List ℚ) (w1 w2 : ℚ)
    (npts ndims : Nat) (dims : List Nat) (out1 out2 : List Entry)
    (hn : 1 ≤ ndims) (hn2 : ndims < 4294967296) (hw1 : 0 ≤ w1) (hw : w1 ≤ w2)
    (hd : ∀ j, j < ndims → 1 ≤ dims.getD j 0 ∧ dims.getD j 0 < 4294967296)
    (h1 : sparse_gridding_distance fuel1 coords w1 npts ndims dims = some out1)
    (h2 : sparse_gridding_distance fuel2 coords w2 npts ndims dims = some out2) :
    out1.Sublist out2 := by
  rw [sparse_gridding_distance_some fuel1 coords w1 npts ndims dims out1 hn hn2 h1,
    sparse_gridding_distance_some fuel2 coords w2 npts ndims dims out2 hn hn2 h2]
  apply sublist_flatMap
  intro p _
  rw [box_entries_eq_sample_entries coords w1 ndims dims p hn hw1 hd,
    box_entries_eq_sample_entries coords w2 ndims dims p hn (le_trans hw1 hw) hd]
  unfold sample_entries
  apply List.Sublist.map
  apply List.monotone_filter_right
  intro v hv
  have hv1 := of_decide_eq_true hv
  apply decide_eq_true
  have hsq : w1 * (1 / 2) * (w1 * (1 / 2)) ≤ w2 * (1 / 2) * (w2 * (1 / 2)) := by nlinarith
  exact le_trans hv1 hsq


/-- C20 (the code at a failing input): grid `[4]`, two samples at `-4/5` and
`1/4`, widths `w1 = 1/5 <= w2 = 1`. With `w1` the stored box of sample 0 is
`[0, 4294967294]`, its loop ends, and the call returns with the triple of sample
1 (voxel 3, stored as 4, distance 0). With `w2` the stored upper bound of sample
0 is `4294967295`, the call never returns, and that triple is never written. -/
theorem C20_wider_kernel_never_returns :
    bounds [-4/5, 1/4] (1/5) 1 [4] 0 = [0, 4294967294] ∧
    sparse_gridding_distance 4294967296 [-4/5, 1/4] (1/5) 2 1 [4]
      = some [{ sample := 2, voxel := 4, distance := 0 }] ∧
    bounds [-4/5, 1/4] 1 1 [4] 0 = [0, 4294967295] ∧
    ¬ ∃ fuel out, sparse_gridding_distance fuel [-4/5, 1/4] 1 2 1 [4] = some out := by
  have hb0 : bounds [-4/5, 1/4] (1/5) 1 [4] 0 = [0, 4294967294] := by decide!
  have hb1 : bounds [-4/5, 1/4] (1/5) 1 [4] 1 = [3, 3] := by decide!
  have hd : ∀ j, j < 1 → 1 ≤ [4].getD j 0 ∧ [4].getD j 0 < 4294967296 := by
    intro j hj
    have : j = 0 := by omega
    subst this
    decide
  refine ⟨hb0, ?_, by decide!, ?_⟩
  · obtain ⟨out, h⟩ := sparse_gridding_distance_total 4294967296 [-4/5, 1/4] (1/5) 2 1 [4]
      (by decide) (by decide) (by decide) (by decide)
      (by
        intro p hp j hj
        have h1 : p = 0 ∨ p = 1 := by omega
        have h2 : j = 0 := by omega
        subst h2
        rcases h1 with rfl | rfl
        · rw [hb0]; decide
        · rw [hb1]; decide)
    rw [h, sparse_gridding_distance_some 4294967296 [-4/5, 1/4] (1/5) 2 1 [4] out
      (by decide) (by decide) h,
      List.flatMap_congr (fun p _ =>
        box_entries_eq_sample_entries [-4/5, 1/4] (1/5) 1 [4] p (by decide) (by norm_num) hd)]
    decide!
  · rintro ⟨fuel, out, h⟩
    unfold sparse_gridding_distance at h
    rw [sample_loop_none_of_first _ 2 fuel [] (by decide)
      (sample_step_diverge fuel _ _ _ _ 0 [] (by decide!))] at h
    simp at h


/-! ## Counting the written triples -/

theorem length_flatMap_le {α β : Type} (f : α → List β) (l : List α) (c : Nat)
    (h : ∀ a ∈ l, (f a).length ≤ c) : (l.flatMap f).length ≤ l.length * c := by
  induction l with
  | nil => simp
  | cons a l ih =>
    rw [List.flatMap_cons, List.length_append, List.length_cons, Nat.succ_mul]
    have h1 := h a (List.mem_cons_self _ _)
    have h2 := ih (fun b hb => h b (List.mem_cons_of_mem _ hb))
    omega

theorem length_nest_tuples_le (rng : Nat → List Nat) (B : Nat) :
    ∀ d, (∀ j, j ≤ d → (rng j).length ≤ B) → (nest_tuples rng d).length ≤ B ^ (d + 1) := by
  intro d
  induction d with
  | zero =>
    intro h
    simpa [nest_tuples] using h 0 (le_refl _)
  | succ d ih =>
    intro h
    simp only [nest_tuples]
    have h1 := length_flatMap_le (fun i => (nest_tuples rng d).map (fun t => t ++ [i]))
      (rng (d + 1)) (B ^ (d + 1))
      (fun a _ => by simpa using ih (fun j hj => h j (by omega)))
    have h2 : (rng (d + 1)).length * B ^ (d + 1) ≤ B * B ^ (d + 1) :=
      Nat.mul_le_mul_right _ (h (d + 1) (le_refl _))
    have h3 : B * B ^ (d + 1) = B ^ (d + 1 + 1) := by ring
    omega

theorem length_support_rng_le (loc : List ℚ) (w : ℚ) (j : Nat) :
    (support_rng loc (w * (1 / 2)) j).length ≤ ⌊w⌋.toNat + 1 := by
  unfold support_rng
  split
  · rename_i h0
    unfold loopRange
    rw [List.length_range']
    have h1 : ⌊loc.getD j 0 + w * (1 / 2)⌋ - ⌈loc.getD j 0 - w * (1 / 2)⌉ ≤ ⌊w⌋ := by
      rw [Int.le_floor]
      push_cast
      have := Int.floor_le (loc.getD j 0 + w * (1 / 2))
      have := Int.le_ceil (loc.getD j 0 - w * (1 / 2))
      linarith
    omega
  · simp

theorem mem_support_rng_of_near (loc : List ℚ) (hw : ℚ) (j i : Nat) (hw0 : 0 ≤ hw)
    (h : ((i : ℚ) - loc.getD j 0) * ((i : ℚ) - loc.getD j 0) ≤ hw * hw) :
    i ∈ support_rng loc hw j := by
  obtain ⟨hc, hf⟩ := near_bounds (loc.getD j 0) hw i hw0 h
  unfold support_rng
  rw [if_pos (by omega), mem_loopRange]
  omega

/-- For every sample, the number of coordinates for which a triple is written is
at most `(floor(kernel_width) + 1)^ndims`. -/
theorem length_emitted_tuples_le (coords : List ℚ) (w : ℚ) (ndims : Nat) (dims : List Nat)
    (p : Nat) (hn : 1 ≤ ndims) (hw : 0 ≤ w) :
    (emitted_tuples coords w ndims dims p).length ≤ (⌊w⌋.toNat + 1) ^ ndims := by
  have hnd : (emitted_tuples coords w ndims dims p).Nodup := by
    unfold emitted_tuples
    exact (nodup_nest_tuples _ _ (fun j _ => pairwise_loopRange _ _)).filter _
  have hsub : emitted_tuples coords w ndims dims p
      ⊆ nest_tuples (support_rng (sample_loc coords ndims dims p) (w * (1 / 2))) (ndims - 1) := by
    intro v hv
    unfold emitted_tuples at hv
    rw [List.mem_filter, mem_nest_tuples] at hv
    obtain ⟨⟨hl, _⟩, hdist⟩ := hv
    have hdist1 := of_decide_eq_true hdist
    rw [mem_nest_tuples]
    refine ⟨hl, fun j hj => ?_⟩
    exact mem_support_rng_of_near _ _ j _ (by linarith)
      (le_trans (term_le_dist_sq _ v j (by omega)) hdist1)
  have h1 := (List.subperm_of_subset hnd hsub).length_le
  have h2 := length_nest_tuples_le
    (support_rng (sample_loc coords ndims dims p) (w * (1 / 2))) (⌊w⌋.toNat + 1) (ndims - 1)
    (fun j _ => length_support_rng_le _ w j)
  have e : ndims - 1 + 1 = ndims := by omega
  rw [e] at h2
  omega

/-- Whenever the call returns, the number of written triples is at most
`npts * (floor(kernel_width) + 1)^ndims`. -/
theorem length_output_le (fuel : Nat) (coords : List ℚ) (w : ℚ) (npts ndims : Nat)
    (dims : List Nat) (out : List Entry)
    (hn : 1 ≤ ndims) (hn2 : ndims < 4294967296) (hw : 0 ≤ w)
    (h : sparse_gridding_distance fuel coords w npts ndims dims = some out) :
    out.length ≤ npts * (⌊w⌋.toNat + 1) ^ ndims := by
  rw [sparse_gridding_distance_emitted fuel coords w npts ndims dims out hn hn2 h]
  have := length_flatMap_le
    (fun p => (emitted_tuples coords w ndims dims p).map
      (entry_of (sample_loc coords ndims dims p) (idx_convert ndims dims) ndims p))
    (List.range npts) ((⌊w⌋.toNat + 1) ^ ndims)
    (fun p _ => by
      rw [List.length_map]
      exact length_emitted_tuples_le coords w ndims dims p hn hw)
  simpa using this

/-- C17 (the code at a failing input): grid `[4]`, `kernel_width = 1/5`, one
sample at `-4/5`. The location is `-6/5` and `floor(-6/5 + 1/10) = -2`, so the
stored box is `[0, 4294967294]`: the loop of `grid_point` runs through
`4294967295` coordinates, more than `(floor(1/5) + 1)^1 = 1`, before the call
returns with no triple written. -/
theorem C17_stored_box_larger_than_bound :
    sample_loc [-4/5] 1 [4] 0 = [-6/5] ∧
    bounds [-4/5] (1/5) 1 [4] 0 = [0, 4294967294] ∧
    (nest_tuples (box_rng (bounds [-4/5] (1/5) 1 [4] 0)) (1 - 1)).length = 4294967295 ∧
    (⌊(1/5 : ℚ)⌋.toNat + 1) ^ 1 = 1 ∧
    sparse_gridding_distance 4294967296 [-4/5] (1/5) 1 1 [4] = some [] := by
  have hb0 : bounds [-4/5] (1/5) 1 [4] 0 = [0, 4294967294] := by decide!
  have hd : ∀ j, j < 1 → 1 ≤ [4].getD j 0 ∧ [4].getD j 0 < 4294967296 := by
    intro j hj
    have : j = 0 := by omega
    subst this
    decide
  refine ⟨by decide!, hb0, ?_, by decide!, ?_⟩
  · rw [hb0]
    simp [nest_tuples, box_rng, loopRange]
  · obtain ⟨out, h⟩ := sparse_gridding_distance_total 4294967296 [-4/5] (1/5) 1 1 [4]
      (by decide) (by decide) (by decide) (by decide)
      (by
        intro p hp j hj
        have h1 : p = 0 := by omega
        have h2 : j = 0 := by omega
        subst h1 h2
        rw [hb0]; decide)
    rw [h, sparse_gridding_distance_some 4294967296 [-4/5] (1/5) 1 1 [4] out
      (by decide) (by decide) h,
      List.flatMap_congr (fun p _ =>
        box_entries_eq_sample_entries [-4/5] (1/5) 1 [4] p (by decide) (by norm_num) hd)]
    decide!

/-! ## A kernel width that is not positive -/

end SparseGridding
